import Mathlib

/-!
LinuxTinyServer: a shallow embedding of the request pipeline.

Strings are lists of byte values (`List Nat`, one `Nat` per `char`).  A
`std::string` is the whole list (it may contain NUL bytes); a `const char *`
view of it is `c_str`, the bytes before the first NUL.  Pointer scans over a
C string are recursions over the list in which running off the end of the list
reads the terminating NUL.
-/

namespace LinuxTinyServer

/-! ## Bytes and C strings -/

/-- The bytes of a string literal of the source. -/
def bytes (s : String) : List Nat := s.toList.map Char.toNat

/-- What a `const char *` scan sees of a `std::string`: the bytes before the
first NUL (`std::string::c_str()` read as a C string, or `string(const char *)`). -/
def c_str (s : List Nat) : List Nat := s.takeWhile (fun b => b != 0)

/-- The C library `tolower` in the default "C" locale, on a byte. -/
def tolower (c : Nat) : Nat := if 65 ≤ c ∧ c ≤ 90 then c + 32 else c

/-! ## MIME types -/

/-- The table `MimeTable[ ]` of the source: extension, content type. -/
def MimeTable : List (String × String) :=
  [ (".3g2", "video/3gpp2"),
    (".3gp", "video/3gpp"),
    (".7z", "application/x-7z-compressed"),
    (".aac", "audio/aac"),
    (".abw", "application/x-abiword"),
    (".arc", "application/octet-stream"),
    (".avi", "video/x-msvideo"),
    (".azw", "application/vnd.amazon.ebook"),
    (".bin", "application/octet-stream"),
    (".bz", "application/x-bzip"),
    (".bz2", "application/x-bzip2"),
    (".csh", "application/x-csh"),
    (".css", "text/css"),
    (".csv", "text/csv"),
    (".doc", "application/msword"),
    (".docx", "application/vnd.openxmlformats-officedocument.wordprocessingml.document"),
    (".eot", "application/vnd.ms-fontobject"),
    (".epub", "application/epub+zip"),
    (".gif", "image/gif"),
    (".htm", "text/html"),
    (".html", "text/html"),
    (".ico", "image/x-icon"),
    (".ics", "text/calendar"),
    (".jar", "application/java-archive"),
    (".jpeg", "image/jpeg"),
    (".jpg", "image/jpeg"),
    (".js", "application/javascript"),
    (".json", "application/json"),
    (".mid", "audio/midi"),
    (".midi", "audio/midi"),
    (".mpeg", "video/mpeg"),
    (".mpkg", "application/vnd.apple.installer+xml"),
    (".odp", "application/vnd.oasis.opendocument.presentation"),
    (".ods", "application/vnd.oasis.opendocument.spreadsheet"),
    (".odt", "application/vnd.oasis.opendocument.text"),
    (".oga", "audio/ogg"),
    (".ogv", "video/ogg"),
    (".ogx", "application/ogg"),
    (".otf", "font/otf"),
    (".pdf", "application/pdf"),
    (".png", "image/png"),
    (".ppt", "application/vnd.ms-powerpoint"),
    (".pptx", "application/vnd.openxmlformats-officedocument.presentationml.presentation"),
    (".rar", "application/x-rar-compressed"),
    (".rtf", "application/rtf"),
    (".sh", "application/x-sh"),
    (".svg", "image/svg+xml"),
    (".swf", "application/x-shockwave-flash"),
    (".tar", "application/x-tar"),
    (".tif", "image/tiff"),
    (".tiff", "image/tiff"),
    (".ts", "application/typescript"),
    (".ttf", "font/ttf"),
    (".vsd", "application/vnd.visio"),
    (".wav", "audio/x-wav"),
    (".weba", "audio/webm"),
    (".webm", "video/webm"),
    (".webp", "image/webp"),
    (".woff", "font/woff"),
    (".woff2", "font/woff2"),
    (".xhtml", "application/xhtml+xml"),
    (".xls", "application/vnd.ms-excel"),
    (".xlsx", "application/vnd.openxmlformats-officedocument.spreadsheetml.sheet"),
    (".xml", "application/xml"),
    (".xul", "application/vnd.mozilla.xul+xml"),
    (".zip", "application/zip") ]

/-- The fallback content type returned for anything not matched. -/
def octetStream : List Nat := bytes "application/octet-stream"

/-- The member `std::string::find_last_of(char)`: the index of the last
occurrence of `c`, `none` standing for `string::npos`. -/
def find_last_of : List Nat → Nat → Option Nat
  | [], _ => none
  | x :: xs, c =>
    match find_last_of xs c with
    | some i => some (i + 1)
    | none => if x = c then some 0 else none

/-- The search loop of `Mimetype` over the entries not yet visited:
`if (MimeTable[i].Extension == extension) return MimeTable[i].Mimetype;`
and the fallback after the loop. -/
def MimetypeSearch (extension : List Nat) : List (String × String) → List Nat
  | [] => octetStream
  | entry :: rest =>
    if bytes entry.1 = extension then bytes entry.2 else MimetypeSearch extension rest

/-- The function `Mimetype( const string filename )`. -/
def Mimetype (filename : List Nat) : List Nat :=
  match find_last_of filename 46 with
  | some ext_pos => MimetypeSearch ((filename.drop ext_pos).map tolower) MimeTable
  | none => octetStream

/-! ## Percent decoding -/

/-- The function `HexLiteralCharacter( char c )`: the value of a hexadecimal
digit, `-1` for any other byte. -/
def HexLiteralCharacter (c : Nat) : Int :=
  if 48 ≤ c ∧ c ≤ 57 then (c : Int) - 48
  else if 97 ≤ c ∧ c ≤ 102 then (c : Int) - 97 + 10
  else if 65 ≤ c ∧ c ≤ 70 then (c : Int) - 65 + 10
  else -1

/-- The scanning loop of `UnencodeUrlEncoding` from the position `from`; the
argument is the memory from `from` on, an exhausted list reading as the
terminating NUL. The result is what the loop appends to `result`. -/
def UnencodeScan : List Nat → List Nat
  | [] => []
  | c :: rest =>
    if c = 0 then []
    else if c = 37 then
      match rest with
      | [] => []
      | c1 :: rest1 =>
        if c1 = 0 then []
        else
          match rest1 with
          | [] => []
          | d :: rest2 =>
            if d = 0 then []
            else if HexLiteralCharacter c1 ≥ 0 ∧ HexLiteralCharacter d ≥ 0 then
              (((HexLiteralCharacter c1).toNat <<< 4 ||| (HexLiteralCharacter d).toNat) % 256)
                :: UnencodeScan rest2
            else
              37 :: UnencodeScan (c1 :: d :: rest2)
    else c :: UnencodeScan rest

/-- The function `UnencodeUrlEncoding( string &path )`: the argument is read
through `path.c_str( )`, the result is a `std::string`. -/
def UnencodeUrlEncoding (path : List Nat) : List Nat := UnencodeScan path

/-! ## Path safety -/

/-- The loop `while (*ptr != 0)` of `SafePath` from the position `ptr`. -/
def SafePathScan : List Nat → Bool
  | [] => true
  | c :: rest =>
    if c = 0 then true
    else if c = 46 ∧ rest.headD 0 = 46 then false
    else SafePathScan rest

/-- The function `SafePath( const char *path )`; the argument is the memory
the pointer refers to. -/
def SafePath (path : List Nat) : Bool :=
  if path.headD 0 ≠ 47 then false else SafePathScan path


/-! ## The connection: transport, file system, plugin

One run of `Talk` is modelled against an environment that fixes what the
outside world answers: the result of every `recv` and `send` on the socket, the
result of `open` for every name, the installed plugin (if any) and the root
directory.  `Talk` returns the chronological list of the calls it makes.  The
diagnostic output on `cout` / `cerr` is not part of the model. -/

/-- The plugin interface of `Plugin.h` (not among the sources): the two
operations `Talk` calls on `Plugin`. -/
structure PluginObject where
  /-- Whether the plugin intercepts this (decoded) path. -/
  MagicPath : List Nat → Bool
  /-- The complete response, header included, for a raw request. -/
  ProcessRequest : List Nat → List Nat

/-- What a successful `open` refers to: a directory, or a file with the size
reported by `fstat` and the bytes delivered by `read`. -/
inductive FileObject where
  | directory
  | regular (st_size : Nat) (content : List Nat)
  deriving DecidableEq

/-- The world around one run of `Talk`. -/
structure Env where
  /-- Result of the `i`-th `recv` asked for at most `cap` bytes: `none` is the
  error return `-1`, `some data` delivers the first `cap` bytes of `data`
  (`some []` is the peer closing). -/
  recv : Nat → Nat → Option (List Nat)
  /-- Result of the `i`-th `send` offered `k` bytes: `none` is the error
  return `-1`, `some m` accepts `min m k` bytes. -/
  send : Nat → Nat → Option Nat
  /-- The indeterminate initial contents of the request buffer `new char[10000]`. -/
  heap : List Nat
  /-- The global `Plugin`, `none` for `nullptr`. -/
  Plugin : Option PluginObject
  /-- The global `RootDirectory`. -/
  RootDirectory : List Nat
  /-- Result of `open(name, O_RDONLY)`: `none` is the error return `-1`. -/
  openFile : List Nat → Option FileObject

/-- The calls `Talk` makes, in order. -/
inductive Event where
  /-- A `recv` asked for `cap` bytes, with its result. -/
  | recv (cap : Nat) (result : Option (List Nat))
  /-- The store `buf[index] = 0` into the request buffer of 10000 bytes. -/
  | store (index : Nat)
  /-- A `send` offered these bytes; `none` for the error return, `some n` for
  `n` bytes accepted. -/
  | send (offered : List Nat) (result : Option Nat)
  | MagicPath (path : List Nat)
  | ProcessRequest (request : List Nat)
  /-- The call `open(name, O_RDONLY)`. -/
  | openFile (name : List Nat)
  /-- A `read` of the open file that returned these bytes. -/
  | read (chunk : List Nat)
  | closeFile
  | closeSocket
  deriving DecidableEq

/-- The bytes the transport accepted, in order, over a whole trace. -/
def sentBytes : List Event → List Nat
  | [] => []
  | Event.send offered (some n) :: rest => offered.take n ++ sentBytes rest
  | _ :: rest => sentBytes rest

/-- The buffers offered to `send`, one per call, in order. -/
def sendCalls : List Event → List (List Nat)
  | [] => []
  | Event.send offered _ :: rest => offered :: sendCalls rest
  | _ :: rest => sendCalls rest

/-- The names handed to `open`, in order. -/
def openCalls : List Event → List (List Nat)
  | [] => []
  | Event.openFile name :: rest => name :: openCalls rest
  | _ :: rest => openCalls rest

/-- The function `FileSize( int f )`: `-1` for directories, else `st_size`. -/
def FileSize : FileObject → Int
  | FileObject.directory => -1
  | FileObject.regular st_size _ => (st_size : Int)

/-- The message of `AccessDenied( )`. -/
def accessDenied : List Nat :=
  bytes "HTTP/1.1 403 Access Denied\r\nContent-Length: 0\r\nConnection: close\r\n\r\n"

/-- The message of `FileNotFound( )`. -/
def fileNotFound : List Nat :=
  bytes "HTTP/1.1 404 Not Found\r\nContent-Length: 0\r\nConnection: close\r\n\r\n"

/-- The library function `std::to_string` on a signed integer: decimal digits. -/
def to_string (n : Int) : List Nat := bytes (Int.repr n)

/-- The loop of `SendAll` with `sent` bytes accepted so far, `calls` being the
number of `send` calls made on the socket before. Returns the return value,
the new number of calls and the calls made; `none` only when `fuel` runs out. -/
def SendAllLoop (send : Nat → Nat → Option Nat) (msg : List Nat) (total : Nat) :
    Nat → Nat → Nat → Option (Int × Nat × List Event)
  | 0, _, _ => none
  | fuel + 1, sent, calls =>
    if sent < total then
      let offered := (msg.drop sent).take (total - sent)
      match send calls (total - sent) with
      | none => some (-1, calls + 1, [Event.send offered none])
      | some m =>
        let bytes := min m (total - sent)
        if bytes = 0 then
          some ((sent : Int), calls + 1, [Event.send offered (some 0)])
        else
          match SendAllLoop send msg total fuel (sent + bytes) (calls + 1) with
          | none => none
          | some (ret, calls2, events) =>
            some (ret, calls2, Event.send offered (some bytes) :: events)
    else some ((sent : Int), calls, [])

/-- The function `SendAll(talkSocket, msg, total)`. Every iteration but the
last accepts at least one byte, so `total + 1` iterations are enough. -/
def SendAll (send : Nat → Nat → Option Nat) (calls : Nat) (msg : List Nat) (total : Nat) :
    Option (Int × Nat × List Event) :=
  SendAllLoop send msg total (total + 1) 0 calls

/-- The loop of `RecvAll` with the bytes `acc` accumulated so far (`recvd` is
`acc.length`), `calls` being the number of `recv` calls made before. Returns the
return value, the accumulated bytes and the calls made; `none` only when `fuel`
runs out. `strstr` searches the buffer as a C string. -/
def RecvAllLoop (recv : Nat → Nat → Option (List Nat)) (buf_size : Nat) :
    Nat → List Nat → Nat → Option (Int × List Nat × List Event)
  | 0, _, _ => none
  | fuel + 1, acc, calls =>
    if acc.length < buf_size - 1 then
      let cap := buf_size - acc.length - 1
      match recv calls cap with
      | none => some (-1, acc, [Event.recv cap none])
      | some data =>
        let got := data.take cap
        if got.length = 0 then
          some ((acc.length : Int), acc, [Event.recv cap (some [])])
        else
          let acc2 := acc ++ got
          if [13, 10, 13, 10] <:+: c_str acc2 then
            some ((acc2.length : Int), acc2, [Event.recv cap (some got), Event.store acc2.length])
          else
            match RecvAllLoop recv buf_size fuel acc2 (calls + 1) with
            | none => none
            | some (ret, acc3, events) =>
              some (ret, acc3, Event.recv cap (some got) :: Event.store acc2.length :: events)
    else some ((acc.length : Int), acc, [])

/-- The function `RecvAll(talkSocket, file_buf, buf_size)`, for `buf_size ≥ 1`.
Every iteration but the last accumulates at least one byte, so `buf_size`
iterations are enough. -/
def RecvAll (recv : Nat → Nat → Option (List Nat)) (buf_size : Nat) :
    Option (Int × List Nat × List Event) :=
  RecvAllLoop recv buf_size buf_size [] 0

/-- The index of the first occurrence of `c` in `s`. -/
def findFirst : List Nat → Nat → Option Nat
  | [], _ => none
  | x :: xs, c =>
    if x = c then some 0
    else
      match findFirst xs c with
      | some i => some (i + 1)
      | none => none

/-- The member `std::string::find(char, pos)`, `none` standing for `npos`. -/
def find (s : List Nat) (c : Nat) (pos : Nat) : Option Nat :=
  match findFirst (s.drop pos) c with
  | some i => some (pos + i)
  | none => none

/-- The parsing step of `Talk`: `action` and the still encoded `path`, or
`none` when the request has fewer than two spaces. (When `space1` is `npos`,
`space1 + 1` wraps to 0 and the second search fails as well.) -/
def TalkParse (request : List Nat) : Option (List Nat × List Nat) :=
  match find request 32 0 with
  | none => none
  | some space1 =>
    match find request 32 (space1 + 1) with
    | none => none
    | some space2 =>
      some (request.take space1, (request.drop (space1 + 1)).take (space2 - space1 - 1))

/-- One `read(file, file_buf, 10000)` at file offset `pos`: the bytes
delivered, none at the end of the file. -/
def readFile (file : FileObject) (pos : Nat) : List Nat :=
  match file with
  | FileObject.directory => []
  | FileObject.regular _ content => (content.drop pos).take 10000

/-- The number of bytes `read` can deliver from a file. -/
def contentLength : FileObject → Nat
  | FileObject.directory => 0
  | FileObject.regular _ content => content.length

/-- The function `AccessDenied( talkSocket )`: one `send` of the fixed
message, its result ignored. -/
def AccessDenied (send : Nat → Nat → Option Nat) (calls : Nat) : List Event :=
  [Event.send accessDenied
    ((send calls accessDenied.length).map fun m => min m accessDenied.length)]

/-- The function `FileNotFound( talkSocket )`: one `send` of the fixed
message, its result ignored. -/
def FileNotFound (send : Nat → Nat → Option Nat) (calls : Nat) : List Event :=
  [Event.send fileNotFound
    ((send calls fileNotFound.length).map fun m => min m fileNotFound.length)]

/-- The file loop of `Talk`: `read` chunks of at most 10000 bytes from offset
`pos` and `SendAll` each, until `read` returns 0 or `SendAll` returns `-1`;
then close the file and the socket. Reading an open regular file is taken not
to fail. Returns `none` only when `fuel` runs out. -/
def TalkFileLoop (send : Nat → Nat → Option Nat) (file : FileObject) :
    Nat → Nat → Nat → Option (List Event)
  | 0, _, _ => none
  | fuel + 1, pos, calls =>
    let chunk := readFile file pos
    if chunk.length < 1 then
      some [Event.read chunk, Event.closeFile, Event.closeSocket]
    else
      match SendAll send calls chunk chunk.length with
      | none => none
      | some (ret, calls2, events) =>
        if ret = -1 then
          some (Event.read chunk :: events ++ [Event.closeFile, Event.closeSocket])
        else
          match TalkFileLoop send file fuel (pos + chunk.length) calls2 with
          | none => none
          | some rest => some (Event.read chunk :: events ++ rest)

/-- The header block of a 200 response. -/
def okHeader (path : List Nat) (fileSize : Int) : List Nat :=
  bytes "HTTP/1.1 200 OK\r\n"
    ++ (bytes "Content-Type: " ++ Mimetype path ++ bytes "\r\n")
    ++ (bytes "Content-Length: " ++ to_string fileSize ++ bytes "\r\n")
    ++ bytes "Connection: close\r\n\r\n"

/-- The part of `Talk` for a request no plugin intercepted: validation of
`action` and the decoded `path`, then file serving. Every chunk `read`
delivers at least one byte, so `contentLength file + 1` iterations of the file
loop are enough. -/
def TalkServe (env : Env) (action path : List Nat) : Option (List Event) :=
  if action ≠ bytes "GET" ∨ SafePath (c_str path) = false then
    some (AccessDenied env.send 0 ++ [Event.closeSocket])
  else
    let full_path := c_str env.RootDirectory ++ path
    match env.openFile (c_str full_path) with
    | none =>
      some (Event.openFile (c_str full_path) :: FileNotFound env.send 0 ++ [Event.closeSocket])
    | some file =>
      let fileSize := FileSize file
      if fileSize = -1 then
        some (Event.openFile (c_str full_path) :: AccessDenied env.send 0
          ++ [Event.closeSocket])
      else
        let header := okHeader path fileSize
        match SendAll env.send 0 header header.length with
        | none => none
        | some (_, calls, events) =>
          match TalkFileLoop env.send file (contentLength file + 1) 0 calls with
          | none => none
          | some rest => some (Event.openFile (c_str full_path) :: events ++ rest)

/-- The part of `Talk` after the request string has been built: parsing,
decoding of the path, the plugin, and `TalkServe` for what the plugin does not
intercept. -/
def TalkRespond (env : Env) (request : List Nat) : Option (List Event) :=
  match TalkParse request with
  | none => some [Event.closeSocket]
  | some (action, rawPath) =>
    let path := UnencodeUrlEncoding rawPath
    match env.Plugin with
    | none => TalkServe env action path
    | some plugin =>
      if plugin.MagicPath path then
        let response := plugin.ProcessRequest request
        match SendAll env.send 0 response response.length with
        | none => none
        | some (_, _, events) =>
          some (Event.MagicPath path :: Event.ProcessRequest request :: events
            ++ [Event.closeSocket])
      else
        match TalkServe env action path with
        | none => none
        | some rest => some (Event.MagicPath path :: rest)

/-- The request string `string(buf)` that `Talk` builds after
`RecvAll(socket, buf, 10000 - 1)` returned `ret` with `acc` accumulated. The
buffer holds `acc` followed by a NUL as soon as a `recv` delivered bytes or
`Talk` stored its own NUL at `buf[ret]`; after a failed first `recv` (`ret` is
`-1` and nothing was accumulated) it still holds its initial contents. -/
def TalkRequest (heap : List Nat) (ret : Int) (acc : List Nat) : List Nat :=
  if ret = -1 ∧ acc = [] then c_str heap else c_str acc

/-- The function `Talk( void *talkSocket )`: the calls made during one
connection. The store `buf[bytes] = 0` uses the return value of `RecvAll`
converted to `size_t`, so `-1` becomes `2^64 - 1`. -/
def Talk (env : Env) : Option (List Event) :=
  match RecvAll env.recv (10000 - 1) with
  | none => none
  | some (ret, acc, events) =>
    let bytes : Nat := (ret % (2 ^ 64 : Int)).toNat
    match TalkRespond env (TalkRequest env.heap ret acc) with
    | none => none
    | some rest => some (events ++ Event.store bytes :: rest)

/-- The request string of a run: what `Talk` parses once `RecvAll` has
returned. -/
def requestOf (env : Env) : Option (List Nat) :=
  match RecvAll env.recv (10000 - 1) with
  | none => none
  | some (ret, acc, _) => some (TalkRequest env.heap ret acc)

/-- A transport that accepts every byte offered to every `send`. -/
def acceptsAll (send : Nat → Nat → Option Nat) : Prop := ∀ i k, send i k = some k

/-- No installed plugin intercepts the (decoded) path. -/
def unclaimed (env : Env) (path : List Nat) : Prop :=
  ∀ plugin, env.Plugin = some plugin → plugin.MagicPath path = false

/-- A peer that delivers the given bytes on the first `recv` and then closes. -/
def plainTransport (request : List Nat) : Nat → Nat → Option (List Nat) :=
  fun i _ => if i = 0 then some request else some []

/-- A file system: the listed names open, every other name fails. -/
def fileSystem (files : List (List Nat × FileObject)) (name : List Nat) : Option FileObject :=
  match files with
  | [] => none
  | (n, f) :: rest => if n = name then some f else fileSystem rest name

/-- An environment without plugin: the request arrives in one piece, every
byte offered is accepted, the root directory is `/srv` with the given files. -/
def plainEnv (request : List Nat) (files : List (List Nat × FileObject)) : Env where
  recv := plainTransport request
  send := fun _ k => some k
  heap := []
  Plugin := none
  RootDirectory := bytes "/srv"
  openFile := fileSystem files

/-- Whether an event belongs to reading the request: a `recv` or a store
into the request buffer. -/
def Event.reading : Event → Bool
  | Event.recv _ _ => true
  | Event.store _ => true
  | _ => false

/-- What is done once the request has been read: the trace without the `recv`
calls and the stores into the request buffer. -/
def afterReading (tr : List Event) : List Event := tr.filter fun e => !e.reading

/-- The chunks delivered by `read` on the open file, in order. -/
def readCalls : List Event → List (List Nat)
  | [] => []
  | Event.read chunk :: rest => chunk :: readCalls rest
  | _ :: rest => readCalls rest

/-- The bytes delivered by the `recv` calls of a trace, in order. -/
def recvBytes : List Event → List Nat
  | [] => []
  | Event.recv _ (some got) :: rest => got ++ recvBytes rest
  | _ :: rest => recvBytes rest

/-- The indices of the stores into the request buffer, in order. -/
def storeIndices : List Event → List Nat
  | [] => []
  | Event.store index :: rest => index :: storeIndices rest
  | _ :: rest => storeIndices rest

/-- A plugin that intercepts exactly the path `/magic` and answers with a
fixed status line followed by the request it was handed. -/
def magicPlugin : PluginObject where
  MagicPath := fun path => decide (path = bytes "/magic")
  ProcessRequest := fun request => bytes "HTTP/1.1 200 OK\r\n\r\n" ++ request

/-- The environment `plainEnv` with `magicPlugin` installed. -/
def magicEnv (request : List Nat) (files : List (List Nat × FileObject)) : Env where
  recv := plainTransport request
  send := fun _ k => some k
  heap := []
  Plugin := some magicPlugin
  RootDirectory := bytes "/srv"
  openFile := fileSystem files

/-- The environment `plainEnv` over a transport whose first `send` fails and
whose later `send` calls accept everything. -/
def firstSendFailsEnv (request : List Nat) (files : List (List Nat × FileObject)) : Env where
  recv := plainTransport request
  send := fun i k => if i = 0 then none else some k
  heap := []
  Plugin := none
  RootDirectory := bytes "/srv"
  openFile := fileSystem files

/-- An environment over a transport that delivers the given chunks, one per
`recv`, and then fails every `recv`; the request buffer initially holds `heap`. -/
def recvFailsEnv (chunks : List (List Nat)) (heap : List Nat)
    (files : List (List Nat × FileObject)) : Env where
  recv := fun i _ => chunks.get? i
  send := fun _ k => some k
  heap := heap
  Plugin := none
  RootDirectory := bytes "/srv"
  openFile := fileSystem files

/-! ## Reference notions used in the statements -/

/-- Reference: the value of a hexadecimal digit character, in either case;
`none` for a byte that is not a hexadecimal digit. -/
def hexDigitValue (c : Nat) : Option Nat :=
  if 48 ≤ c ∧ c ≤ 57 then some (c - 48)
  else if 65 ≤ c ∧ c ≤ 70 then some (c - 55)
  else if 97 ≤ c ∧ c ≤ 102 then some (c - 87)
  else none

/-- Reference: the suffix of `f` starting at its last `.`, for a name `f`
that contains a `.`: the first suffix met from the left that has no `.` after
its first byte. -/
def lastDotSuffix : List Nat → List Nat
  | [] => []
  | x :: xs => if 46 ∈ xs then lastDotSuffix xs else x :: xs

/-- Reference definition of the content type of a file name, in the words of
the specification: the fallback when the name has no `.`; otherwise the entry
of `MimeTable` whose key is the lower-cased suffix starting at the last `.`,
and the fallback when that suffix is not a key. -/
def MimetypeReference (f : List Nat) : List Nat :=
  if 46 ∈ f then
    match List.lookup ((lastDotSuffix f).map tolower)
        (MimeTable.map fun entry => (bytes entry.1, bytes entry.2)) with
    | some contentType => contentType
    | none => bytes "application/octet-stream"
  else bytes "application/octet-stream"

--DEFS-END

/-! ## The percent decoder: unfolding equations -/

theorem hex_of_value {c i : Nat} (h : hexDigitValue c = some i) :
    HexLiteralCharacter c = (i : Int) ∧ i < 16 := by
  unfold hexDigitValue at h
  unfold HexLiteralCharacter
  split_ifs at h ⊢ <;> first | omega | (simp at h; omega)

theorem hex_of_none {c : Nat} (h : hexDigitValue c = none) :
    HexLiteralCharacter c = -1 := by
  unfold hexDigitValue at h
  unfold HexLiteralCharacter
  split_ifs at h ⊢
  simp at h; omega

theorem hex_nonneg_iff (c : Nat) :
    HexLiteralCharacter c ≥ 0 ↔ (hexDigitValue c).isSome = true := by
  cases h : hexDigitValue c with
  | none => simp [hex_of_none h]
  | some i => simp [(hex_of_value h).1]

theorem hex_byte {i j : Nat} (hi : i < 16) (hj : j < 16) :
    (i <<< 4 ||| j) % 256 = 16 * i + j := by
  have h := Nat.mul_add_lt_is_or (show j < 2 ^ 4 by omega) i
  rw [Nat.shiftLeft_eq, Nat.mul_comm i, ← h]
  omega

theorem UnencodeScan_nil : UnencodeScan [] = [] := rfl

theorem UnencodeScan_nul (r : List Nat) : UnencodeScan (0 :: r) = [] := by
  unfold UnencodeScan; simp

theorem UnencodeScan_plain {c : Nat} (r : List Nat) (h0 : c ≠ 0) (h : c ≠ 37) :
    UnencodeScan (c :: r) = c :: UnencodeScan r := by
  conv => lhs; unfold UnencodeScan
  simp [h0, h]

theorem UnencodeScan_pct_end : UnencodeScan [37] = [] := by
  unfold UnencodeScan; simp

theorem UnencodeScan_pct_nul (r : List Nat) : UnencodeScan (37 :: 0 :: r) = [] := by
  unfold UnencodeScan; simp

theorem UnencodeScan_pct_one (c : Nat) : UnencodeScan [37, c] = [] := by
  unfold UnencodeScan; simp

theorem UnencodeScan_pct_one_nul (c : Nat) (r : List Nat) :
    UnencodeScan (37 :: c :: 0 :: r) = [] := by
  unfold UnencodeScan; simp

theorem UnencodeScan_pct_hex {c d : Nat} (r : List Nat) (hc : c ≠ 0) (hd : d ≠ 0)
    (h : HexLiteralCharacter c ≥ 0 ∧ HexLiteralCharacter d ≥ 0) :
    UnencodeScan (37 :: c :: d :: r) =
      (((HexLiteralCharacter c).toNat <<< 4 ||| (HexLiteralCharacter d).toNat) % 256)
        :: UnencodeScan r := by
  conv => lhs; unfold UnencodeScan
  simp [hc, hd, h.1, h.2]

theorem UnencodeScan_pct_lit {c d : Nat} (r : List Nat) (hc : c ≠ 0) (hd : d ≠ 0)
    (h : ¬ (HexLiteralCharacter c ≥ 0 ∧ HexLiteralCharacter d ≥ 0)) :
    UnencodeScan (37 :: c :: d :: r) = 37 :: UnencodeScan (c :: d :: r) := by
  conv => lhs; unfold UnencodeScan
  simp only [ge_iff_le] at h
  simp [hc, hd, h]

theorem UnencodeScan_length (s : List Nat) : (UnencodeScan s).length ≤ s.length := by
  induction s using UnencodeScan.induct with
  | case1 => simp [UnencodeScan_nil]
  | case2 r => simp [UnencodeScan_nul]
  | case3 => simp [UnencodeScan_pct_end]
  | case4 r => simp [UnencodeScan_pct_nul]
  | case5 c _ => simp [UnencodeScan_pct_one]
  | case6 c _ r => simp [UnencodeScan_pct_one_nul]
  | case7 c hc d r hd h _ ih =>
    rw [UnencodeScan_pct_hex r hc hd h]
    simp only [List.length_cons]; omega
  | case8 c hc d r hd h _ ih =>
    rw [UnencodeScan_pct_lit r hc hd h]
    simp only [List.length_cons] at ih ⊢; omega
  | case9 c r h0 h ih =>
    rw [UnencodeScan_plain r h0 h]
    simp only [List.length_cons]; omega

theorem UnencodeScan_no_pct (t : List Nat) (h : 37 ∉ t) : UnencodeScan t = c_str t := by
  induction t with
  | nil => rfl
  | cons c r ih =>
    have hc : c ≠ 37 := fun e => h (e ▸ List.mem_cons_self _ _)
    have hr : 37 ∉ r := fun m => h (List.mem_cons_of_mem _ m)
    by_cases h0 : c = 0
    · subst h0; simp [UnencodeScan_nul, c_str]
    · rw [UnencodeScan_plain r h0 hc, ih hr]
      simp [c_str, List.takeWhile_cons, h0]

theorem c_str_of_no_nul (t : List Nat) (h : 0 ∉ t) : c_str t = t := by
  unfold c_str
  rw [List.takeWhile_eq_self_iff]
  intro b hb
  have : b ≠ 0 := fun e => h (e ▸ hb)
  simpa using this

theorem c_str_no_nul (t : List Nat) : 0 ∉ c_str t := by
  intro h
  have := List.mem_takeWhile_imp h
  simp at this

theorem UnencodeScan_c_str (s : List Nat) : UnencodeScan (c_str s) = UnencodeScan s := by
  induction s using UnencodeScan.induct with
  | case1 => rfl
  | case2 r => simp [c_str, UnencodeScan_nul, UnencodeScan_nil]
  | case3 => simp [c_str]
  | case4 r => simp [c_str, List.takeWhile_cons, UnencodeScan_pct_nul, UnencodeScan_pct_end]
  | case5 c hc => simp [c_str, List.takeWhile_cons, hc]
  | case6 c hc r =>
    simp [c_str, List.takeWhile_cons, hc, UnencodeScan_pct_one, UnencodeScan_pct_one_nul]
  | case7 c hc d r hd h _ ih =>
    have e : c_str (37 :: c :: d :: r) = 37 :: c :: d :: c_str r := by
      simp [c_str, List.takeWhile_cons, hc, hd]
    rw [e, UnencodeScan_pct_hex r hc hd h, UnencodeScan_pct_hex _ hc hd h, ih]
  | case8 c hc d r hd h _ ih =>
    have e : c_str (37 :: c :: d :: r) = 37 :: c_str (c :: d :: r) := by
      simp [c_str, List.takeWhile_cons, hc, hd]
    have e2 : c_str (c :: d :: r) = c :: d :: c_str r := by
      simp [c_str, List.takeWhile_cons, hc, hd]
    rw [e, e2, UnencodeScan_pct_lit r hc hd h, UnencodeScan_pct_lit _ hc hd h, ← e2, ih]
  | case9 c r h0 h ih =>
    have e : c_str (c :: r) = c :: c_str r := by
      simp [c_str, List.takeWhile_cons, h0]
    rw [e, UnencodeScan_plain r h0 h, UnencodeScan_plain _ h0 h, ih]

/-! ## Path safety: the scan decides the absence of two consecutive dots -/

theorem SafePathScan_iff (p : List Nat) (h : 0 ∉ p) :
    SafePathScan p = true ↔ ¬ [46, 46] <:+: p := by
  induction p with
  | nil => simp [SafePathScan]
  | cons c r ih =>
    have hc : c ≠ 0 := fun e => h (e ▸ List.mem_cons_self _ _)
    have hr : 0 ∉ r := fun m => h (List.mem_cons_of_mem _ m)
    have hd : r.headD 0 = 46 ↔ [46] <+: r := by
      cases r with
      | nil => simp
      | cons d r2 => simp [List.cons_prefix_cons, eq_comm]
    rw [SafePathScan, List.infix_cons_iff, List.cons_prefix_cons]
    simp only [hc, if_false]
    by_cases hcd : c = 46 ∧ r.headD 0 = 46
    · simp only [hcd, and_self, if_true]
      simp [hd.mp hcd.2]
    · simp only [hcd, if_false, ih hr]
      have : ¬ (46 = c ∧ [46] <+: r) := fun x => hcd ⟨x.1.symm, hd.mpr x.2⟩
      simp [this]

theorem SafePathScan_c_str (p : List Nat) : SafePathScan (c_str p) = SafePathScan p := by
  induction p with
  | nil => rfl
  | cons c r ih =>
    by_cases hc : c = 0
    · subst hc; simp [c_str, SafePathScan]
    · have e : c_str (c :: r) = c :: c_str r := by
        simp [c_str, List.takeWhile_cons, hc]
      have hd : (c_str r).headD 0 = r.headD 0 := by
        cases r with
        | nil => rfl
        | cons d r2 =>
          by_cases hd0 : d = 0
          · subst hd0; simp [c_str]
          · simp [c_str, List.takeWhile_cons, hd0]
      rw [e, SafePathScan, SafePathScan, hd, ih]

theorem SafePath_c_str (p : List Nat) : SafePath (c_str p) = SafePath p := by
  have hd : (c_str p).headD 0 = p.headD 0 := by
    cases p with
    | nil => rfl
    | cons d r2 =>
      by_cases hd0 : d = 0
      · subst hd0; simp [c_str]
      · simp [c_str, List.takeWhile_cons, hd0]
  simp only [SafePath, hd, SafePathScan_c_str]

/-! ## Claims on the pure functions -/

/-- C2: for every path `p` handed to `SafePath` as a C string (no NUL inside),
`SafePath p` is true exactly when `p` starts with `/` and no two consecutive
bytes of `p` are both `.`; the four paths of the specification evaluate as
stated. -/
theorem C2_SafePath_iff (p : List Nat) (hp : 0 ∉ p) :
    (SafePath p = true ↔ (p.head? = some 47 ∧ ¬ [46, 46] <:+: p)) ∧
    SafePath (bytes "/a/../b") = false ∧ SafePath (bytes "a/b") = false ∧
    SafePath (bytes "/x..y") = false ∧ SafePath (bytes "/a/b/c.txt") = true := by
  refine ⟨?_, by decide, by decide, by decide, by decide⟩
  have hh : p.headD 0 = 47 ↔ p.head? = some 47 := by
    cases p with
    | nil => simp
    | cons d r => simp
  unfold SafePath
  by_cases h47 : p.headD 0 = 47
  · simp only [h47, ne_eq, not_true_eq_false, if_false, SafePathScan_iff p hp, hh.mp h47,
      true_and]
  · have : ¬ p.head? = some 47 := fun x => h47 (hh.mpr x)
    simp only [ne_eq, h47, not_false_eq_true, if_true]
    simp [this]

theorem C2_SafePath_iff_witness :
    0 ∉ bytes "/a/b/c.txt" ∧
    ((SafePath (bytes "/a/b/c.txt") = true ↔
      ((bytes "/a/b/c.txt").head? = some 47 ∧ ¬ [46, 46] <:+: bytes "/a/b/c.txt")) ∧
    SafePath (bytes "/a/../b") = false ∧ SafePath (bytes "a/b") = false ∧
    SafePath (bytes "/x..y") = false ∧ SafePath (bytes "/a/b/c.txt") = true) :=
  ⟨by decide, C2_SafePath_iff (bytes "/a/b/c.txt") (by decide)⟩

/-- C4: the scanning equations of `UnencodeUrlEncoding` on NUL-free input: a
byte `x` other than `%` is copied and scanning goes on after it; `%` followed
by two hexadecimal digits `c`, `d` (either case) yields the single byte
`16 * hex c + hex d` and scanning goes on after the three bytes; `%` followed by
two bytes that are not both hexadecimal digits yields a literal `%` and scanning
resumes at `c`. -/
theorem C4_UnencodeUrlEncoding_equations (x c d : Nat) (rest : List Nat)
    (hx : x ≠ 0) (hc : c ≠ 0) (hd : d ≠ 0) :
    (x ≠ 37 → UnencodeUrlEncoding (x :: rest) = x :: UnencodeUrlEncoding rest) ∧
    (∀ i j, hexDigitValue c = some i → hexDigitValue d = some j →
      UnencodeUrlEncoding (37 :: c :: d :: rest) =
        (16 * i + j) :: UnencodeUrlEncoding rest) ∧
    ((hexDigitValue c = none ∨ hexDigitValue d = none) →
      UnencodeUrlEncoding (37 :: c :: d :: rest) =
        37 :: UnencodeUrlEncoding (c :: d :: rest)) := by
  unfold UnencodeUrlEncoding
  refine ⟨fun h => UnencodeScan_plain rest hx h, ?_, ?_⟩
  · intro i j hi hj
    obtain ⟨ei, li⟩ := hex_of_value hi
    obtain ⟨ej, lj⟩ := hex_of_value hj
    rw [UnencodeScan_pct_hex rest hc hd ⟨by rw [ei]; omega, by rw [ej]; omega⟩, ei, ej]
    simp only [Int.toNat_ofNat, hex_byte li lj]
  · intro h
    refine UnencodeScan_pct_lit rest hc hd ?_
    rintro ⟨h1, h2⟩
    rcases h with h | h
    · rw [hex_of_none h] at h1; omega
    · rw [hex_of_none h] at h2; omega

theorem C4_UnencodeUrlEncoding_equations_witness :
    UnencodeUrlEncoding (bytes "a%4Ab") = 97 :: UnencodeUrlEncoding (bytes "%4Ab") ∧
    UnencodeUrlEncoding (bytes "%4Ab") = (16 * 4 + 10) :: UnencodeUrlEncoding (bytes "b") ∧
    UnencodeUrlEncoding (bytes "%4zb") = 37 :: UnencodeUrlEncoding (bytes "4zb") :=
  ⟨(C4_UnencodeUrlEncoding_equations 97 52 65 (bytes "%4Ab")
      (by decide) (by decide) (by decide)).1 (by decide),
   (C4_UnencodeUrlEncoding_equations 97 52 65 (bytes "b")
      (by decide) (by decide) (by decide)).2.1 4 10 (by decide) (by decide),
   (C4_UnencodeUrlEncoding_equations 97 52 122 (bytes "b")
      (by decide) (by decide) (by decide)).2.2 (Or.inr (by decide))⟩

/-- C5 (as claimed, refuted): the output of decoding `%00` is the single NUL
byte, which contains no `%`, and decoding it again yields the empty string. -/
theorem C5_idempotent_counterexample :
    37 ∉ UnencodeUrlEncoding (bytes "%00") ∧
    UnencodeUrlEncoding (UnencodeUrlEncoding (bytes "%00")) ≠
      UnencodeUrlEncoding (bytes "%00") := by
  decide

/-- C5 (amended): when the output of `UnencodeUrlEncoding` contains no `%`,
decoding that output again yields its bytes before the first NUL; so the
second pass returns the output unchanged whenever the output also contains no
NUL byte. -/
theorem C5_idempotent_without_nul (s : List Nat)
    (h : 37 ∉ UnencodeUrlEncoding s) :
    UnencodeUrlEncoding (UnencodeUrlEncoding s) = c_str (UnencodeUrlEncoding s) ∧
    (0 ∉ UnencodeUrlEncoding s →
      UnencodeUrlEncoding (UnencodeUrlEncoding s) = UnencodeUrlEncoding s) := by
  have e : UnencodeUrlEncoding (UnencodeUrlEncoding s) = c_str (UnencodeUrlEncoding s) :=
    UnencodeScan_no_pct _ h
  exact ⟨e, fun h0 => by rw [e, c_str_of_no_nul _ h0]⟩

theorem C5_idempotent_without_nul_witness :
    UnencodeUrlEncoding (bytes "/a%20b") = bytes "/a b" ∧
    37 ∉ UnencodeUrlEncoding (bytes "/a%20b") ∧ 0 ∉ UnencodeUrlEncoding (bytes "/a%20b") ∧
    UnencodeUrlEncoding (UnencodeUrlEncoding (bytes "/a%20b")) =
      c_str (UnencodeUrlEncoding (bytes "/a%20b")) ∧
    UnencodeUrlEncoding (UnencodeUrlEncoding (bytes "/a%20b")) =
      UnencodeUrlEncoding (bytes "/a%20b") :=
  ⟨by decide, by decide, by decide,
    (C5_idempotent_without_nul (bytes "/a%20b") (by decide)).1,
    (C5_idempotent_without_nul (bytes "/a%20b") (by decide)).2 (by decide)⟩

/-- C6: decoding never lengthens a string: the length of
`UnencodeUrlEncoding s` is at most the length of `s`, for every string `s`
(NUL bytes included). -/
theorem C6_UnencodeUrlEncoding_length_le (s : List Nat) :
    (UnencodeUrlEncoding s).length ≤ s.length :=
  UnencodeScan_length s

/-! ## MIME resolution -/

theorem find_last_of_none_iff (f : List Nat) (c : Nat) :
    find_last_of f c = none ↔ c ∉ f := by
  induction f with
  | nil => simp [find_last_of]
  | cons x xs ih =>
    rw [find_last_of]
    cases h : find_last_of xs c with
    | some i =>
      have : c ∈ xs := by
        by_contra hn
        rw [ih.mpr hn] at h
        cases h
      simp [this]
    | none =>
      have hn : c ∉ xs := ih.mp h
      by_cases hx : x = c
      · subst hx; simp
      · have : ¬ c = x := fun e => hx e.symm
        simp [hx, hn, this]

theorem find_last_of_drop (f : List Nat) (i : Nat) (h : find_last_of f 46 = some i) :
    f.drop i = lastDotSuffix f := by
  induction f generalizing i with
  | nil => simp [find_last_of] at h
  | cons x xs ih =>
    rw [find_last_of] at h
    cases hx : find_last_of xs 46 with
    | some j =>
      rw [hx] at h
      have hm : 46 ∈ xs := by
        by_contra hn
        rw [(find_last_of_none_iff xs 46).mpr hn] at hx
        cases hx
      simp only [Option.some.injEq] at h
      subst h
      simp [lastDotSuffix, hm, ih j hx]
    | none =>
      rw [hx] at h
      have hn : 46 ∉ xs := (find_last_of_none_iff xs 46).mp hx
      by_cases h46 : x = 46
      · simp only [h46, if_true, Option.some.injEq] at h
        subst h
        simp [lastDotSuffix, hn]
      · simp [h46] at h

theorem MimetypeSearch_eq_lookup (e : List Nat) (table : List (String × String)) :
    MimetypeSearch e table =
      match List.lookup e (table.map fun entry => (bytes entry.1, bytes entry.2)) with
      | some contentType => contentType
      | none => bytes "application/octet-stream" := by
  induction table with
  | nil => rfl
  | cons entry rest ih =>
    rw [MimetypeSearch, List.map_cons, List.lookup_cons]
    by_cases h : bytes entry.1 = e
    · simp [h]
    · have : (e == bytes entry.1) = false := by
        simpa using fun x => h x.symm
      simp only [h, if_false, this, ih]

theorem tolower_eq_dot (c : Nat) : tolower c = 46 ↔ c = 46 := by
  unfold tolower
  split_ifs <;> omega

theorem tolower_tolower (c : Nat) : tolower (tolower c) = tolower c := by
  unfold tolower
  split_ifs <;> omega

theorem find_last_of_map_tolower (f : List Nat) :
    find_last_of (f.map tolower) 46 = find_last_of f 46 := by
  induction f with
  | nil => rfl
  | cons x xs ih =>
    simp only [List.map_cons, find_last_of, ih, tolower_eq_dot]

/-- C7: `Mimetype` computes the reference definition: the fallback
`application/octet-stream` for a name without `.`, otherwise the table entry
for the lower-cased suffix starting at the last `.` (a suffix of the name that
begins with `.` and has no other `.`), the fallback when there is none. The keys
of the table are pairwise distinct, and the two names of the specification
resolve as stated. -/
theorem C7_Mimetype_eq_reference (f : List Nat) :
    Mimetype f = MimetypeReference f ∧
    (46 ∈ f → ∃ t, lastDotSuffix f = 46 :: t ∧ 46 ∉ t ∧ lastDotSuffix f <:+ f) ∧
    (MimeTable.map fun entry => entry.1).Nodup ∧
    Mimetype (bytes "noext") = bytes "application/octet-stream" ∧
    Mimetype (bytes "/x/y.html") = bytes "text/html" := by
  refine ⟨?_, ?_, by decide, by decide, by decide⟩
  · unfold Mimetype MimetypeReference
    cases h : find_last_of f 46 with
    | none =>
      have : 46 ∉ f := (find_last_of_none_iff f 46).mp h
      simp [this, octetStream]
    | some i =>
      have hm : 46 ∈ f := by
        by_contra hn
        rw [(find_last_of_none_iff f 46).mpr hn] at h
        cases h
      simp only [hm, if_true, find_last_of_drop f i h, MimetypeSearch_eq_lookup]
  · intro hm
    induction f with
    | nil => simp at hm
    | cons x xs ih =>
      by_cases hx : 46 ∈ xs
      · obtain ⟨t, e, ht, hs⟩ := ih hx
        refine ⟨t, ?_, ht, ?_⟩
        · simp [lastDotSuffix, hx, e]
        · simp only [lastDotSuffix, hx, if_true]
          exact hs.trans (List.suffix_cons x xs)
      · have hx46 : x = 46 := by
          rcases List.mem_cons.mp hm with h | h
          · exact h.symm
          · exact absurd h hx
        refine ⟨xs, ?_, hx, ?_⟩
        · simp [lastDotSuffix, hx, hx46]
        · simp [lastDotSuffix, hx]

theorem C7_Mimetype_eq_reference_witness :
    46 ∈ bytes "/x.d/y.tar.GZ" ∧
    Mimetype (bytes "/x.d/y.tar.GZ") = MimetypeReference (bytes "/x.d/y.tar.GZ") ∧
    ∃ t, lastDotSuffix (bytes "/x.d/y.tar.GZ") = 46 :: t ∧ 46 ∉ t ∧
      lastDotSuffix (bytes "/x.d/y.tar.GZ") <:+ bytes "/x.d/y.tar.GZ" :=
  ⟨by decide, (C7_Mimetype_eq_reference (bytes "/x.d/y.tar.GZ")).1,
    (C7_Mimetype_eq_reference (bytes "/x.d/y.tar.GZ")).2.1 (by decide)⟩

/-- C8: `Mimetype` is insensitive to letter case: for every ASCII file name
`f`, `Mimetype f` equals `Mimetype` of `f` with every upper-case letter replaced
by its lower-case letter. -/
theorem C8_Mimetype_case_insensitive (f : List Nat) (hascii : ∀ b ∈ f, b < 128) :
    Mimetype f = Mimetype (f.map tolower) := by
  have _ := hascii
  unfold Mimetype
  rw [find_last_of_map_tolower]
  cases find_last_of f 46 with
  | none => rfl
  | some i =>
    simp only [← List.map_drop, List.map_map]
    congr 1
    apply List.map_congr_left
    intro b _
    exact (tolower_tolower b).symm

theorem C8_Mimetype_case_insensitive_witness :
    (∀ b ∈ bytes "/x/y.HTML", b < 128) ∧
    (bytes "/x/y.HTML").map tolower = bytes "/x/y.html" ∧
    Mimetype (bytes "/x/y.HTML") = Mimetype ((bytes "/x/y.HTML").map tolower) :=
  ⟨by decide, by decide, C8_Mimetype_case_insensitive (bytes "/x/y.HTML") (by decide)⟩

/-! ## Traces -/

theorem sentBytes_append (xs ys : List Event) :
    sentBytes (xs ++ ys) = sentBytes xs ++ sentBytes ys := by
  induction xs with
  | nil => rfl
  | cons e rest ih =>
    cases e with
    | send offered result =>
      cases result with
      | none => simpa [sentBytes] using ih
      | some n => simp [sentBytes, ih]
    | _ => simpa [sentBytes] using ih

theorem sendCalls_append (xs ys : List Event) :
    sendCalls (xs ++ ys) = sendCalls xs ++ sendCalls ys := by
  induction xs with
  | nil => rfl
  | cons e rest ih => cases e <;> simp [sendCalls, ih]

theorem openCalls_append (xs ys : List Event) :
    openCalls (xs ++ ys) = openCalls xs ++ openCalls ys := by
  induction xs with
  | nil => rfl
  | cons e rest ih => cases e <;> simp [openCalls, ih]

/-! ## Termination of the loops: the fuel handed over is enough -/

theorem SendAllLoop_some (send : Nat → Nat → Option Nat) (msg : List Nat) (total : Nat) :
    ∀ fuel sent calls, total - sent < fuel →
      ∃ r, SendAllLoop send msg total fuel sent calls = some r := by
  intro fuel
  induction fuel with
  | zero => intro sent calls h; omega
  | succ fuel ih =>
    intro sent calls h
    rw [SendAllLoop]
    by_cases hlt : sent < total
    · simp only [hlt, if_true]
      cases hs : send calls (total - sent) with
      | none => exact ⟨_, rfl⟩
      | some m =>
        simp only
        by_cases hz : min m (total - sent) = 0
        · simp only [hz, if_true]; exact ⟨_, rfl⟩
        · simp only [hz, if_false]
          obtain ⟨r, hr⟩ := ih (sent + min m (total - sent)) (calls + 1) (by omega)
          rw [hr]; exact ⟨_, rfl⟩
    · simp only [hlt, if_false]; exact ⟨_, rfl⟩

theorem SendAll_some (send : Nat → Nat → Option Nat) (calls : Nat) (msg : List Nat)
    (total : Nat) : ∃ r, SendAll send calls msg total = some r :=
  SendAllLoop_some send msg total (total + 1) 0 calls (by omega)

theorem RecvAllLoop_some (recv : Nat → Nat → Option (List Nat)) (buf_size : Nat) :
    ∀ fuel acc calls, buf_size - 1 - acc.length < fuel →
      ∃ r, RecvAllLoop recv buf_size fuel acc calls = some r := by
  intro fuel
  induction fuel with
  | zero => intro acc calls h; omega
  | succ fuel ih =>
    intro acc calls h
    rw [RecvAllLoop]
    by_cases hlt : acc.length < buf_size - 1
    · simp only [hlt, if_true]
      cases hs : recv calls (buf_size - acc.length - 1) with
      | none => exact ⟨_, rfl⟩
      | some data =>
        simp only
        by_cases hz : (data.take (buf_size - acc.length - 1)).length = 0
        · simp only [hz, if_true]; exact ⟨_, rfl⟩
        · simp only [hz, if_false]
          split_ifs
          · exact ⟨_, rfl⟩
          · obtain ⟨r, hr⟩ := ih (acc ++ data.take (buf_size - acc.length - 1)) (calls + 1)
              (by rw [List.length_append]; omega)
            rw [hr]; exact ⟨_, rfl⟩
    · simp only [hlt, if_false]; exact ⟨_, rfl⟩

theorem RecvAll_some (recv : Nat → Nat → Option (List Nat)) (buf_size : Nat)
    (h : 1 ≤ buf_size) : ∃ r, RecvAll recv buf_size = some r :=
  RecvAllLoop_some recv buf_size buf_size [] 0 (by simp only [List.length_nil]; omega)


theorem TalkFileLoop_some (send : Nat → Nat → Option Nat) (file : FileObject) :
    ∀ fuel pos calls, contentLength file - pos < fuel →
      ∃ tr, TalkFileLoop send file fuel pos calls = some tr := by
  intro fuel
  induction fuel with
  | zero => intro pos calls h; omega
  | succ fuel ih =>
    intro pos calls h
    rw [TalkFileLoop]
    by_cases hlt : (readFile file pos).length < 1
    · simp only [hlt, if_true]; exact ⟨_, rfl⟩
    · simp only [hlt, if_false]
      obtain ⟨⟨ret, calls2, events⟩, hr⟩ :=
        SendAll_some send calls (readFile file pos) (readFile file pos).length
      rw [hr]
      simp only
      split_ifs
      · exact ⟨_, rfl⟩
      · have hlen : (readFile file pos).length ≤ contentLength file - pos := by
          cases file with
          | directory => simp [readFile] at hlt
          | regular n content =>
            simp only [readFile, contentLength, List.length_take, List.length_drop]
            omega
        obtain ⟨rest, hrest⟩ := ih (pos + (readFile file pos).length) calls2 (by omega)
        rw [hrest]; exact ⟨_, rfl⟩

theorem TalkServe_some (env : Env) (action path : List Nat) :
    ∃ tr, TalkServe env action path = some tr := by
  unfold TalkServe
  split_ifs
  · exact ⟨_, rfl⟩
  · simp only
    cases env.openFile (c_str (c_str env.RootDirectory ++ path)) with
    | none => exact ⟨_, rfl⟩
    | some file =>
      simp only
      split_ifs
      · exact ⟨_, rfl⟩
      · obtain ⟨⟨ret, calls, events⟩, hr⟩ := SendAll_some env.send 0
          (okHeader path (FileSize file)) (okHeader path (FileSize file)).length
        rw [hr]
        simp only
        obtain ⟨rest, hrest⟩ :=
          TalkFileLoop_some env.send file (contentLength file + 1) 0 calls (by omega)
        rw [hrest]; exact ⟨_, rfl⟩

theorem TalkRespond_some (env : Env) (request : List Nat) :
    ∃ tr, TalkRespond env request = some tr := by
  unfold TalkRespond
  cases TalkParse request with
  | none => exact ⟨_, rfl⟩
  | some tokens =>
    obtain ⟨action, rawPath⟩ := tokens
    simp only
    cases env.Plugin with
    | none => exact TalkServe_some env action _
    | some plugin =>
      simp only
      split_ifs
      · obtain ⟨⟨ret, calls, events⟩, hr⟩ := SendAll_some env.send 0
          (plugin.ProcessRequest request) (plugin.ProcessRequest request).length
        rw [hr]; exact ⟨_, rfl⟩
      · obtain ⟨rest, hrest⟩ := TalkServe_some env action (UnencodeUrlEncoding rawPath)
        rw [hrest]; exact ⟨_, rfl⟩

/-- `Talk` always returns: the fuel of its loops never runs out. -/
theorem Talk_some (env : Env) : ∃ tr, Talk env = some tr := by
  unfold Talk
  obtain ⟨⟨ret, acc, events⟩, hr⟩ := RecvAll_some env.recv (10000 - 1) (by omega)
  rw [hr]
  simp only
  obtain ⟨rest, hrest⟩ := TalkRespond_some env (TalkRequest env.heap ret acc)
  rw [hrest]; exact ⟨_, rfl⟩

/-! ## Reading the request -/

theorem RecvAllLoop_quiet (recv : Nat → Nat → Option (List Nat)) (buf_size : Nat) :
    ∀ fuel acc calls ret acc2 events,
      RecvAllLoop recv buf_size fuel acc calls = some (ret, acc2, events) →
      sentBytes events = [] ∧ sendCalls events = [] ∧ openCalls events = [] := by
  intro fuel
  induction fuel with
  | zero => intro acc calls ret acc2 events h; simp [RecvAllLoop] at h
  | succ fuel ih =>
    intro acc calls ret acc2 events h
    rw [RecvAllLoop] at h
    by_cases hlt : acc.length < buf_size - 1
    · simp only [hlt, if_true] at h
      cases hs : recv calls (buf_size - acc.length - 1) with
      | none =>
        rw [hs] at h
        simp only [Option.some.injEq, Prod.mk.injEq] at h
        obtain ⟨-, -, rfl⟩ := h
        simp [sentBytes, sendCalls, openCalls]
      | some data =>
        rw [hs] at h
        simp only at h
        by_cases hz : (data.take (buf_size - acc.length - 1)).length = 0
        · simp only [hz, if_true, Option.some.injEq, Prod.mk.injEq] at h
          obtain ⟨-, -, rfl⟩ := h
          simp [sentBytes, sendCalls, openCalls]
        · simp only [hz, if_false] at h
          split_ifs at h
          · simp only [Option.some.injEq, Prod.mk.injEq] at h
            obtain ⟨-, -, rfl⟩ := h
            simp [sentBytes, sendCalls, openCalls]
          · cases hrec : RecvAllLoop recv buf_size fuel
                (acc ++ data.take (buf_size - acc.length - 1)) (calls + 1) with
            | none => rw [hrec] at h; simp at h
            | some r =>
              obtain ⟨ret2, acc2, events2⟩ := r
              rw [hrec] at h
              simp only [Option.some.injEq, Prod.mk.injEq] at h
              obtain ⟨-, -, rfl⟩ := h
              have := ih _ _ _ _ _ hrec
              simpa [sentBytes, sendCalls, openCalls] using this
    · simp only [hlt, if_false, Option.some.injEq, Prod.mk.injEq] at h
      obtain ⟨-, -, rfl⟩ := h
      simp [sentBytes, sendCalls, openCalls]

/-- What `Talk` sends and opens is what `TalkRespond` does on the request
string of the run. -/
theorem Talk_of_request (env : Env) (request : List Nat) (tr : List Event)
    (hreq : requestOf env = some request) (hresp : TalkRespond env request = some tr) :
    ∃ full, Talk env = some full ∧ sentBytes full = sentBytes tr ∧
      sendCalls full = sendCalls tr ∧ openCalls full = openCalls tr := by
  unfold requestOf at hreq
  unfold Talk
  cases hr : RecvAll env.recv (10000 - 1) with
  | none => rw [hr] at hreq; simp at hreq
  | some r =>
    obtain ⟨ret, acc, events⟩ := r
    rw [hr] at hreq
    simp only [Option.some.injEq] at hreq
    simp only [hreq, hresp]
    obtain ⟨h1, h2, h3⟩ := RecvAllLoop_quiet _ _ _ _ _ _ _ _ hr
    refine ⟨_, rfl, ?_, ?_, ?_⟩
    · rw [sentBytes_append, h1]; simp [sentBytes]
    · rw [sendCalls_append, h2]; simp [sendCalls]
    · rw [openCalls_append, h3]; simp [openCalls]

theorem requestOf_no_nul (env : Env) (request : List Nat)
    (hreq : requestOf env = some request) : 0 ∉ request := by
  unfold requestOf at hreq
  cases hr : RecvAll env.recv (10000 - 1) with
  | none => rw [hr] at hreq; simp at hreq
  | some r =>
    obtain ⟨ret, acc, events⟩ := r
    rw [hr] at hreq
    simp only [Option.some.injEq] at hreq
    subst hreq
    unfold TalkRequest
    split_ifs <;> exact c_str_no_nul _

/-! ## Parsing -/

theorem findFirst_append (a : List Nat) (c : Nat) (r : List Nat) (h : c ∉ a) :
    findFirst (a ++ c :: r) c = some a.length := by
  induction a with
  | nil => simp [findFirst]
  | cons x xs ih =>
    have hx : x ≠ c := fun e => h (e ▸ List.mem_cons_self _ _)
    have hxs : c ∉ xs := fun m => h (List.mem_cons_of_mem _ m)
    simp [findFirst, hx, ih hxs]

/-- A request made of a first token, a space, a second token, a space and
anything else is split into these two tokens. -/
theorem TalkParse_tokens (a p rest : List Nat) (ha : 32 ∉ a) (hp : 32 ∉ p) :
    TalkParse (a ++ 32 :: (p ++ 32 :: rest)) = some (a, p) := by
  have h1 : find (a ++ 32 :: (p ++ 32 :: rest)) 32 0 = some a.length := by
    simp [find, findFirst_append a 32 _ ha]
  have hd : (a ++ 32 :: (p ++ 32 :: rest)).drop (a.length + 1) = p ++ 32 :: rest := by
    rw [show a ++ 32 :: (p ++ 32 :: rest) = (a ++ [32]) ++ (p ++ 32 :: rest) by simp]
    rw [List.drop_append_eq_append_drop]
    simp
  have h2 : find (a ++ 32 :: (p ++ 32 :: rest)) 32 (a.length + 1)
      = some (a.length + 1 + p.length) := by
    simp only [find, hd, findFirst_append p 32 _ hp]
  simp only [TalkParse, h1, h2, hd]
  have e : a.length + 1 + p.length - a.length - 1 = p.length := by omega
  rw [e]
  simp


/-! ## Sending over a transport that accepts everything -/

theorem SendAll_acceptsAll (send : Nat → Nat → Option Nat) (h : acceptsAll send)
    (calls : Nat) (msg : List Nat) (hne : msg ≠ []) :
    SendAll send calls msg msg.length =
      some ((msg.length : Int), calls + 1, [Event.send msg (some msg.length)]) := by
  have hpos : 0 < msg.length := List.length_pos.mpr hne
  obtain ⟨n, hn⟩ : ∃ n, msg.length = n + 1 := ⟨msg.length - 1, by omega⟩
  unfold SendAll
  rw [SendAllLoop]
  simp only [hpos, if_true, Nat.sub_zero, List.drop_zero, List.take_length, h calls msg.length,
    Nat.min_self, Nat.zero_add]
  have hz : ¬ msg.length = 0 := by omega
  simp only [hz, if_false]
  rw [hn, SendAllLoop]
  simp

theorem take_append_drop_length_take (k : Nat) (l : List Nat) :
    l.take k ++ l.drop (l.take k).length = l := by
  by_cases h : k ≤ l.length
  · rw [List.length_take, Nat.min_eq_left h, List.take_append_drop]
  · have hk : l.length ≤ k := by omega
    rw [List.take_of_length_le hk, List.drop_length, List.append_nil]

/-- Over a transport that accepts everything, the file loop sends the rest of
the file from `pos` on, one `send` per chunk of at most 10000 bytes, and opens
nothing. -/
theorem TalkFileLoop_acceptsAll (send : Nat → Nat → Option Nat) (h : acceptsAll send)
    (n : Nat) (content : List Nat) :
    ∀ fuel pos calls, content.length - pos < fuel →
      ∃ tr, TalkFileLoop send (FileObject.regular n content) fuel pos calls = some tr ∧
        sentBytes tr = content.drop pos ∧
        (sendCalls tr).flatten = content.drop pos ∧
        (∀ chunk ∈ sendCalls tr, chunk.length ≤ 10000) ∧
        openCalls tr = [] := by
  intro fuel
  induction fuel with
  | zero => intro pos calls hf; omega
  | succ fuel ih =>
    intro pos calls hf
    rw [TalkFileLoop]
    by_cases hlt : (readFile (FileObject.regular n content) pos).length < 1
    · simp only [hlt, if_true]
      have hnil : content.drop pos = [] := by
        simp only [readFile, List.length_take, List.length_drop] at hlt
        apply List.drop_eq_nil_of_le
        omega
      refine ⟨_, rfl, ?_, ?_, ?_, ?_⟩ <;> simp [sentBytes, sendCalls, openCalls, hnil]
    · simp only [hlt, if_false]
      have hne : readFile (FileObject.regular n content) pos ≠ [] := by
        intro e; rw [e] at hlt; simp at hlt
      rw [SendAll_acceptsAll send h calls _ hne]
      have hneg : ¬ ((readFile (FileObject.regular n content) pos).length : Int) = -1 := by
        omega
      simp only [hneg, if_false]
      have hlen : (readFile (FileObject.regular n content) pos).length ≤ content.length - pos := by
        simp only [readFile, List.length_take, List.length_drop]
        omega
      have hpos : 0 < (readFile (FileObject.regular n content) pos).length :=
        List.length_pos.mpr hne
      obtain ⟨rest, hrest, hs, hj, hc, ho⟩ :=
        ih (pos + (readFile (FileObject.regular n content) pos).length) (calls + 1) (by omega)
      rw [hrest]
      have hsplit : readFile (FileObject.regular n content) pos
          ++ content.drop (pos + (readFile (FileObject.regular n content) pos).length)
          = content.drop pos := by
        rw [← List.drop_drop]
        exact take_append_drop_length_take 10000 (content.drop pos)
      refine ⟨_, rfl, ?_, ?_, ?_, ?_⟩
      · have e : sentBytes (Event.read (readFile (FileObject.regular n content) pos) ::
            [Event.send (readFile (FileObject.regular n content) pos)
              (some (readFile (FileObject.regular n content) pos).length)] ++ rest)
            = readFile (FileObject.regular n content) pos ++ sentBytes rest := by
          simp [sentBytes]
        rw [e, hs, hsplit]
      · have e : sendCalls (Event.read (readFile (FileObject.regular n content) pos) ::
            [Event.send (readFile (FileObject.regular n content) pos)
              (some (readFile (FileObject.regular n content) pos).length)] ++ rest)
            = readFile (FileObject.regular n content) pos :: sendCalls rest := by
          simp [sendCalls]
        rw [e, List.flatten_cons, hj, hsplit]
      · intro chunk hchunk
        simp only [sendCalls, List.cons_append, List.nil_append, List.mem_cons] at hchunk
        rcases hchunk with e | m
        · rw [e]; simp only [readFile, List.length_take]; omega
        · exact hc chunk m
      · simpa [openCalls] using ho


/-! ## Requests that no plugin intercepts -/

theorem TalkRespond_unclaimed (env : Env) (request a p : List Nat) (tr : List Event)
    (hparse : TalkParse request = some (a, p))
    (hun : unclaimed env (UnencodeUrlEncoding p))
    (hserve : TalkServe env a (UnencodeUrlEncoding p) = some tr) :
    ∃ full, TalkRespond env request = some full ∧ sentBytes full = sentBytes tr ∧
      sendCalls full = sendCalls tr ∧ openCalls full = openCalls tr := by
  unfold TalkRespond
  simp only [hparse]
  cases hpl : env.Plugin with
  | none => exact ⟨tr, hserve, rfl, rfl, rfl⟩
  | some plugin =>
    simp only [hun plugin hpl, Bool.false_eq_true, if_false, hserve]
    exact ⟨_, rfl, rfl, rfl, rfl⟩

theorem Talk_unclaimed (env : Env) (a p rest : List Nat) (tr : List Event)
    (ha : 32 ∉ a) (hp : 32 ∉ p)
    (hreq : requestOf env = some (a ++ 32 :: (p ++ 32 :: rest)))
    (hun : unclaimed env (UnencodeUrlEncoding p))
    (hserve : TalkServe env a (UnencodeUrlEncoding p) = some tr) :
    ∃ full, Talk env = some full ∧ sentBytes full = sentBytes tr ∧
      sendCalls full = sendCalls tr ∧ openCalls full = openCalls tr := by
  obtain ⟨mid, hmid, h1, h2, h3⟩ :=
    TalkRespond_unclaimed env _ a p tr (TalkParse_tokens a p rest ha hp) hun hserve
  obtain ⟨full, hfull, g1, g2, g3⟩ := Talk_of_request env _ mid hreq hmid
  exact ⟨full, hfull, g1.trans h1, g2.trans h2, g3.trans h3⟩

/-- A single `send` of a fixed message: what reaches the peer is a prefix of
the message, all of it when the transport accepts what it is offered. -/
theorem sentBytes_single (send : Nat → Nat → Option Nat) (msg : List Nat) :
    sentBytes [Event.send msg ((send 0 msg.length).map fun m => min m msg.length),
        Event.closeSocket] <+: msg ∧
    (acceptsAll send →
      sentBytes [Event.send msg ((send 0 msg.length).map fun m => min m msg.length),
        Event.closeSocket] = msg) := by
  constructor
  · cases send 0 msg.length with
    | none => simp [sentBytes]
    | some m => simpa [sentBytes] using List.take_prefix _ msg
  · intro h
    rw [h 0 msg.length]
    simp [sentBytes]

theorem Talk_rejected (env : Env) (a p rest : List Nat)
    (ha : 32 ∉ a) (hp : 32 ∉ p)
    (hreq : requestOf env = some (a ++ 32 :: (p ++ 32 :: rest)))
    (hun : unclaimed env (UnencodeUrlEncoding p))
    (hbad : a ≠ bytes "GET" ∨ SafePath (c_str (UnencodeUrlEncoding p)) = false) :
    ∃ tr, Talk env = some tr ∧ sendCalls tr = [accessDenied] ∧ openCalls tr = [] ∧
      sentBytes tr <+: accessDenied ∧ (acceptsAll env.send → sentBytes tr = accessDenied) := by
  have hserve : TalkServe env a (UnencodeUrlEncoding p)
      = some (AccessDenied env.send 0 ++ [Event.closeSocket]) := by
    unfold TalkServe
    simp only [hbad, if_true]
  obtain ⟨full, hfull, g1, g2, g3⟩ := Talk_unclaimed env a p rest _ ha hp hreq hun hserve
  refine ⟨full, hfull, ?_, ?_, ?_, ?_⟩
  · rw [g2]; rfl
  · rw [g3]; rfl
  · rw [g1]; exact (sentBytes_single env.send accessDenied).1
  · rw [g1]; exact (sentBytes_single env.send accessDenied).2

/-- C9: for a request with at least two spaces that no plugin claims, whose
method token is not exactly `GET` or whose decoded path fails `SafePath`, the
only `send` call `Talk` makes offers exactly the fixed 403 message, `Talk` opens
no file, and what the peer receives is that message (all of it when the
transport accepts what it is offered, a prefix of it otherwise). -/
theorem C9_rejected_request_403 (env : Env) (a p rest : List Nat)
    (ha : 32 ∉ a) (hp : 32 ∉ p)
    (hreq : requestOf env = some (a ++ 32 :: (p ++ 32 :: rest)))
    (hun : unclaimed env (UnencodeUrlEncoding p))
    (hbad : a ≠ bytes "GET" ∨ SafePath (c_str (UnencodeUrlEncoding p)) = false) :
    ∃ tr, Talk env = some tr ∧
      sendCalls tr =
        [bytes "HTTP/1.1 403 Access Denied\r\nContent-Length: 0\r\nConnection: close\r\n\r\n"] ∧
      openCalls tr = [] ∧
      sentBytes tr <+:
        bytes "HTTP/1.1 403 Access Denied\r\nContent-Length: 0\r\nConnection: close\r\n\r\n" ∧
      (acceptsAll env.send → sentBytes tr =
        bytes "HTTP/1.1 403 Access Denied\r\nContent-Length: 0\r\nConnection: close\r\n\r\n") :=
  Talk_rejected env a p rest ha hp hreq hun hbad

theorem C9_rejected_request_403_witness :
    ∃ tr, Talk (plainEnv (bytes "POST /file.html HTTP/1.1\r\n\r\n")
        [(bytes "/srv/file.html", FileObject.regular 9 (bytes "<p>hi</p>"))]) = some tr ∧
      sendCalls tr =
        [bytes "HTTP/1.1 403 Access Denied\r\nContent-Length: 0\r\nConnection: close\r\n\r\n"] ∧
      openCalls tr = [] ∧
      sentBytes tr =
        bytes "HTTP/1.1 403 Access Denied\r\nContent-Length: 0\r\nConnection: close\r\n\r\n" := by
  obtain ⟨tr, h1, h2, h3, -, h5⟩ := C9_rejected_request_403
    (plainEnv (bytes "POST /file.html HTTP/1.1\r\n\r\n")
      [(bytes "/srv/file.html", FileObject.regular 9 (bytes "<p>hi</p>"))])
    (bytes "POST") (bytes "/file.html") (bytes "HTTP/1.1\r\n\r\n")
    (by decide) (by decide) (by decide) (fun _ h => nomatch h) (Or.inl (by decide))
  exact ⟨tr, h1, h2, h3, h5 (fun _ _ => rfl)⟩

/-- C10: for a `GET` request that no plugin claims and whose decoded path
passes `SafePath`, when `open` of the root directory followed by the path
fails, the only `send` call `Talk` makes offers exactly the fixed bodyless 404
message, and what the peer receives is that message (all of it when the
transport accepts what it is offered, a prefix of it otherwise). -/
theorem C10_missing_file_404 (env : Env) (p rest : List Nat)
    (hp : 32 ∉ p)
    (hreq : requestOf env = some (bytes "GET" ++ 32 :: (p ++ 32 :: rest)))
    (hun : unclaimed env (UnencodeUrlEncoding p))
    (hsafe : SafePath (c_str (UnencodeUrlEncoding p)) = true)
    (hopen : env.openFile (c_str (c_str env.RootDirectory ++ UnencodeUrlEncoding p)) = none) :
    ∃ tr, Talk env = some tr ∧
      sendCalls tr =
        [bytes "HTTP/1.1 404 Not Found\r\nContent-Length: 0\r\nConnection: close\r\n\r\n"] ∧
      sentBytes tr <+:
        bytes "HTTP/1.1 404 Not Found\r\nContent-Length: 0\r\nConnection: close\r\n\r\n" ∧
      (acceptsAll env.send → sentBytes tr =
        bytes "HTTP/1.1 404 Not Found\r\nContent-Length: 0\r\nConnection: close\r\n\r\n") := by
  have hserve : TalkServe env (bytes "GET") (UnencodeUrlEncoding p)
      = some (Event.openFile (c_str (c_str env.RootDirectory ++ UnencodeUrlEncoding p))
          :: FileNotFound env.send 0 ++ [Event.closeSocket]) := by
    unfold TalkServe
    simp only [hsafe, hopen, ne_eq, not_true_eq_false, Bool.true_eq_false, or_self, if_false]
  obtain ⟨full, hfull, g1, g2, -⟩ :=
    Talk_unclaimed env (bytes "GET") p rest _ (by decide) hp hreq hun hserve
  refine ⟨full, hfull, ?_, ?_, ?_⟩
  · rw [g2]; rfl
  · rw [g1]; exact (sentBytes_single env.send fileNotFound).1
  · rw [g1]; exact (sentBytes_single env.send fileNotFound).2

theorem C10_missing_file_404_witness :
    ∃ tr, Talk (plainEnv (bytes "GET /missing.txt HTTP/1.1\r\n\r\n") []) = some tr ∧
      sendCalls tr =
        [bytes "HTTP/1.1 404 Not Found\r\nContent-Length: 0\r\nConnection: close\r\n\r\n"] ∧
      sentBytes tr =
        bytes "HTTP/1.1 404 Not Found\r\nContent-Length: 0\r\nConnection: close\r\n\r\n" := by
  obtain ⟨tr, h1, h2, -, h4⟩ := C10_missing_file_404
    (plainEnv (bytes "GET /missing.txt HTTP/1.1\r\n\r\n") [])
    (bytes "/missing.txt") (bytes "HTTP/1.1\r\n\r\n")
    (by decide) (by decide) (fun _ h => nomatch h) (by decide) (by decide)
  exact ⟨tr, h1, h2, h4 (fun _ _ => rfl)⟩

theorem okHeader_eq (path : List Nat) (n : Nat) :
    okHeader path (n : Int) =
      bytes "HTTP/1.1 200 OK\r\nContent-Type: " ++ Mimetype path
        ++ bytes "\r\nContent-Length: " ++ bytes (Nat.repr n)
        ++ bytes "\r\nConnection: close\r\n\r\n" := by
  have e1 : bytes "HTTP/1.1 200 OK\r\nContent-Type: "
      = bytes "HTTP/1.1 200 OK\r\n" ++ bytes "Content-Type: " := by decide
  have e2 : bytes "\r\nContent-Length: " = bytes "\r\n" ++ bytes "Content-Length: " := by decide
  have e3 : bytes "\r\nConnection: close\r\n\r\n"
      = bytes "\r\n" ++ bytes "Connection: close\r\n\r\n" := by decide
  have e4 : to_string (n : Int) = bytes (Nat.repr n) := rfl
  rw [okHeader, e1, e2, e3, e4]
  simp only [List.append_assoc]

theorem okHeader_ne_nil (path : List Nat) (fileSize : Int) : okHeader path fileSize ≠ [] := by
  have e : bytes "HTTP/1.1 200 OK\r\n" ≠ [] := by decide
  unfold okHeader
  simp [e]

/-- C3: for a `GET` request that no plugin claims, whose decoded path passes
`SafePath` and whose target opens as a regular file of `n` bytes with content
`b`, over a transport that accepts every byte offered: the bytes sent are
exactly the 200 header block, with the content type of the decoded path and the
decimal size, followed by the `n` bytes of `b`; the header is offered in one
`send`, the body in chunks of at most 10000 bytes whose concatenation is `b`. -/
theorem C3_regular_file_200 (env : Env) (p rest : List Nat) (n : Nat) (b : List Nat)
    (hp : 32 ∉ p)
    (hreq : requestOf env = some (bytes "GET" ++ 32 :: (p ++ 32 :: rest)))
    (hun : unclaimed env (UnencodeUrlEncoding p))
    (hsafe : SafePath (c_str (UnencodeUrlEncoding p)) = true)
    (hopen : env.openFile (c_str (c_str env.RootDirectory ++ UnencodeUrlEncoding p))
      = some (FileObject.regular n b))
    (hsize : b.length = n)
    (hacc : acceptsAll env.send) :
    ∃ tr, Talk env = some tr ∧
      sentBytes tr =
        (bytes "HTTP/1.1 200 OK\r\nContent-Type: " ++ Mimetype (UnencodeUrlEncoding p)
          ++ bytes "\r\nContent-Length: " ++ bytes (Nat.repr n)
          ++ bytes "\r\nConnection: close\r\n\r\n") ++ b ∧
      (sentBytes tr).drop
        (bytes "HTTP/1.1 200 OK\r\nContent-Type: " ++ Mimetype (UnencodeUrlEncoding p)
          ++ bytes "\r\nContent-Length: " ++ bytes (Nat.repr n)
          ++ bytes "\r\nConnection: close\r\n\r\n").length = b ∧
      ((sentBytes tr).drop
        (bytes "HTTP/1.1 200 OK\r\nContent-Type: " ++ Mimetype (UnencodeUrlEncoding p)
          ++ bytes "\r\nContent-Length: " ++ bytes (Nat.repr n)
          ++ bytes "\r\nConnection: close\r\n\r\n").length).length = n ∧
      ∃ chunks, sendCalls tr =
          (bytes "HTTP/1.1 200 OK\r\nContent-Type: " ++ Mimetype (UnencodeUrlEncoding p)
            ++ bytes "\r\nContent-Length: " ++ bytes (Nat.repr n)
            ++ bytes "\r\nConnection: close\r\n\r\n") :: chunks ∧
        chunks.flatten = b ∧ ∀ chunk ∈ chunks, chunk.length ≤ 10000 := by
  obtain ⟨loop, hloop, hs, hj, hc, -⟩ :=
    TalkFileLoop_acceptsAll env.send hacc n b (b.length + 1) 0 1 (by omega)
  have hserve : TalkServe env (bytes "GET") (UnencodeUrlEncoding p)
      = some (Event.openFile (c_str (c_str env.RootDirectory ++ UnencodeUrlEncoding p))
          :: [Event.send (okHeader (UnencodeUrlEncoding p) (n : Int))
                (some (okHeader (UnencodeUrlEncoding p) (n : Int)).length)] ++ loop) := by
    unfold TalkServe
    have hneg : ¬ ((n : Int) = -1) := by omega
    simp only [hsafe, hopen, ne_eq, not_true_eq_false, Bool.true_eq_false, or_self, if_false,
      FileSize, hneg, SendAll_acceptsAll env.send hacc 0 _ (okHeader_ne_nil _ _), contentLength,
      Nat.zero_add, hloop]
  obtain ⟨full, hfull, g1, g2, -⟩ :=
    Talk_unclaimed env (bytes "GET") p rest _ (by decide) hp hreq hun hserve
  have hsent : sentBytes full = okHeader (UnencodeUrlEncoding p) (n : Int) ++ b := by
    rw [g1]
    simp [sentBytes, sentBytes_append, hs]
  rw [okHeader_eq] at hsent
  refine ⟨full, hfull, hsent, ?_, ?_, loop |> sendCalls, ?_, ?_, hc⟩
  · rw [hsent, List.drop_left]
  · rw [hsent, List.drop_left, hsize]
  · rw [g2, ← okHeader_eq]
    simp [sendCalls, sendCalls_append]
  · simpa using hj


theorem C3_regular_file_200_witness :
    ∃ tr, Talk (plainEnv (bytes "GET /file.html HTTP/1.1\r\n\r\n")
        [(bytes "/srv/file.html", FileObject.regular 9 (bytes "<p>hi</p>"))]) = some tr ∧
      sentBytes tr = bytes ("HTTP/1.1 200 OK\r\nContent-Type: text/html\r\n"
        ++ "Content-Length: 9\r\nConnection: close\r\n\r\n<p>hi</p>") := by
  obtain ⟨tr, h1, h2, -⟩ := C3_regular_file_200
    (plainEnv (bytes "GET /file.html HTTP/1.1\r\n\r\n")
      [(bytes "/srv/file.html", FileObject.regular 9 (bytes "<p>hi</p>"))])
    (bytes "/file.html") (bytes "HTTP/1.1\r\n\r\n") 9 (bytes "<p>hi</p>")
    (by decide) (by decide) (fun _ h => nomatch h) (by decide) (by decide) (by decide)
    (fun _ _ => rfl)
  refine ⟨tr, h1, ?_⟩
  rw [h2]
  decide

/-! ## Parent-directory sequences -/

theorem dots_infix_cons (x : Nat) (l : List Nat) :
    [46, 46] <:+: x :: l ↔ (x = 46 ∧ l.head? = some 46) ∨ [46, 46] <:+: l := by
  rw [List.infix_cons_iff, List.cons_prefix_cons]
  have hd : [46] <+: l ↔ l.head? = some 46 := by
    cases l with
    | nil => simp
    | cons d r => simp [List.cons_prefix_cons, eq_comm]
  rw [hd, eq_comm]

theorem hex_not_dot {c : Nat} (h : HexLiteralCharacter c ≥ 0) : c ≠ 46 := by
  intro e
  subst e
  simp [HexLiteralCharacter] at h

/-- A literal `..` in a NUL-free string survives percent decoding. -/
theorem UnencodeScan_keeps_dots (s : List Nat) (h0 : 0 ∉ s) (h : [46, 46] <:+: s) :
    [46, 46] <:+: UnencodeScan s := by
  induction s using UnencodeScan.induct with
  | case1 => simp at h
  | case2 r => simp at h0
  | case3 => revert h; decide
  | case4 r => simp at h0
  | case5 c _ =>
    rw [dots_infix_cons, dots_infix_cons] at h
    simp at h
  | case6 c _ r => simp at h0
  | case7 c hc d r hd hx _ ih =>
    rw [UnencodeScan_pct_hex r hc hd hx]
    rw [dots_infix_cons, dots_infix_cons, dots_infix_cons] at h
    have h0r : 0 ∉ r := fun m =>
      h0 (List.mem_cons_of_mem _ (List.mem_cons_of_mem _ (List.mem_cons_of_mem _ m)))
    rcases h with ⟨h37, -⟩ | ⟨hc46, -⟩ | ⟨hd46, -⟩ | h
    · omega
    · exact absurd hc46 (hex_not_dot hx.1)
    · exact absurd hd46 (hex_not_dot hx.2)
    · exact (dots_infix_cons _ _).mpr (Or.inr (ih h0r h))
  | case8 c hc d r hd hx _ ih =>
    rw [UnencodeScan_pct_lit r hc hd hx]
    rw [dots_infix_cons] at h
    have h0r : 0 ∉ c :: d :: r := fun m => h0 (List.mem_cons_of_mem _ m)
    rcases h with ⟨h37, -⟩ | h
    · omega
    · exact (dots_infix_cons _ _).mpr (Or.inr (ih h0r h))
  | case9 c r hc0 hc ih =>
    rw [UnencodeScan_plain r hc0 hc]
    have h0r : 0 ∉ r := fun m => h0 (List.mem_cons_of_mem _ m)
    rw [dots_infix_cons] at h
    rcases h with ⟨hc46, hhead⟩ | h
    · cases r with
      | nil => simp at hhead
      | cons d r2 =>
        simp only [List.head?_cons, Option.some.injEq] at hhead
        subst hhead
        rw [UnencodeScan_plain r2 (by omega) (by omega)]
        exact (dots_infix_cons _ _).mpr (Or.inl ⟨hc46, rfl⟩)
    · exact (dots_infix_cons _ _).mpr (Or.inr (ih h0r h))

theorem SafePath_false_of_dots (q : List Nat) (h : [46, 46] <:+: c_str q) :
    SafePath (c_str q) = false := by
  cases hs : SafePath (c_str q) with
  | false => rfl
  | true =>
    exfalso
    unfold SafePath at hs
    split_ifs at hs
    exact (SafePathScan_iff (c_str q) (c_str_no_nul q)).mp hs h

/-- C1 (as claimed, refuted): the path of the request
`GET /a%00/../../etc/passwd` contains `..`, literally and after decoding, no
plugin is installed, the root directory holds a file `a`, and `Talk` answers
with `200 OK`. -/
theorem C1_dots_behind_nul_counterexample :
    requestOf (plainEnv (bytes "GET /a%00/../../etc/passwd HTTP/1.1\r\n\r\n")
        [(bytes "/srv/a", FileObject.regular 2 (bytes "hi"))])
      = some (bytes "GET" ++ 32 :: (bytes "/a%00/../../etc/passwd"
          ++ 32 :: bytes "HTTP/1.1\r\n\r\n")) ∧
    [46, 46] <:+: bytes "/a%00/../../etc/passwd" ∧
    [46, 46] <:+: UnencodeUrlEncoding (bytes "/a%00/../../etc/passwd") ∧
    (plainEnv (bytes "GET /a%00/../../etc/passwd HTTP/1.1\r\n\r\n")
        [(bytes "/srv/a", FileObject.regular 2 (bytes "hi"))]).Plugin.isNone = true ∧
    (Talk (plainEnv (bytes "GET /a%00/../../etc/passwd HTTP/1.1\r\n\r\n")
        [(bytes "/srv/a", FileObject.regular 2 (bytes "hi"))])).map sentBytes
      = some (bytes ("HTTP/1.1 200 OK\r\nContent-Type: application/octet-stream\r\n"
          ++ "Content-Length: 2\r\nConnection: close\r\n\r\nhi")) ∧
    (Talk (plainEnv (bytes "GET /a%00/../../etc/passwd HTTP/1.1\r\n\r\n")
        [(bytes "/srv/a", FileObject.regular 2 (bytes "hi"))])).map
      (fun tr => decide (bytes "HTTP/1.1 200 OK" <+: sentBytes tr)) = some true := by
  decide

/-- C1 (amended): for a request that no plugin claims, whose decoded path
contains `..` before its first NUL byte (which holds whenever the path contains
`..` literally or after decoding and the decoded path has no NUL byte), the
bytes `Talk` sends never begin with `HTTP/1.1 200 OK`: the only `send` offers the
403 message and no file is opened, whatever the root directory and the file
system are. -/
theorem C1_dots_never_200 (env : Env) (a p rest : List Nat)
    (ha : 32 ∉ a) (hp : 32 ∉ p)
    (hreq : requestOf env = some (a ++ 32 :: (p ++ 32 :: rest)))
    (hun : unclaimed env (UnencodeUrlEncoding p))
    (hdots : [46, 46] <:+: c_str (UnencodeUrlEncoding p) ∨
      (0 ∉ UnencodeUrlEncoding p ∧
        ([46, 46] <:+: p ∨ [46, 46] <:+: UnencodeUrlEncoding p))) :
    ∃ tr, Talk env = some tr ∧
      ¬ bytes "HTTP/1.1 200 OK" <+: sentBytes tr ∧
      sendCalls tr = [accessDenied] ∧ openCalls tr = [] := by
  have h0p : 0 ∉ p := by
    have h0 := requestOf_no_nul env _ hreq
    intro m
    exact h0 (List.mem_append_right _ (List.mem_cons_of_mem _ (List.mem_append_left _ m)))
  have hd : [46, 46] <:+: c_str (UnencodeUrlEncoding p) := by
    rcases hdots with h | ⟨hnul, h | h⟩
    · exact h
    · rw [c_str_of_no_nul _ hnul]
      exact UnencodeScan_keeps_dots p h0p h
    · rw [c_str_of_no_nul _ hnul]
      exact h
  obtain ⟨tr, htr, hcalls, hopen, hpre, -⟩ :=
    Talk_rejected env a p rest ha hp hreq hun (Or.inr (SafePath_false_of_dots _ hd))
  refine ⟨tr, htr, ?_, hcalls, hopen⟩
  intro hok
  have : bytes "HTTP/1.1 200 OK" <+: accessDenied := hok.trans hpre
  revert this
  decide

theorem C1_dots_never_200_witness :
    ∃ tr, Talk (plainEnv (bytes "GET /../../etc/passwd HTTP/1.1\r\n\r\n")
        [(bytes "/srv/../../etc/passwd", FileObject.regular 2 (bytes "hi"))]) = some tr ∧
      ¬ bytes "HTTP/1.1 200 OK" <+: sentBytes tr ∧
      sendCalls tr = [accessDenied] ∧ openCalls tr = [] :=
  C1_dots_never_200
    (plainEnv (bytes "GET /../../etc/passwd HTTP/1.1\r\n\r\n")
      [(bytes "/srv/../../etc/passwd", FileObject.regular 2 (bytes "hi"))])
    (bytes "GET") (bytes "/../../etc/passwd") (bytes "HTTP/1.1\r\n\r\n")
    (by decide) (by decide) (by decide) (fun _ h => nomatch h) (Or.inl (by decide))


/-! ## Dangling escapes -/

theorem UnencodeScan_dangling (s : List Nat) (h0 : 0 ∉ s) (hp : 37 ∉ s) (c : Nat) :
    UnencodeScan (s ++ [37]) = s ∧ UnencodeScan (s ++ [37, c]) = s := by
  induction s with
  | nil => exact ⟨UnencodeScan_pct_end, UnencodeScan_pct_one c⟩
  | cons x xs ih =>
    have hx0 : x ≠ 0 := fun e => h0 (e ▸ List.mem_cons_self _ _)
    have hx : x ≠ 37 := fun e => hp (e ▸ List.mem_cons_self _ _)
    obtain ⟨i1, i2⟩ := ih (fun m => h0 (List.mem_cons_of_mem _ m))
      (fun m => hp (List.mem_cons_of_mem _ m))
    simp only [List.cons_append]
    rw [UnencodeScan_plain _ hx0 hx, UnencodeScan_plain _ hx0 hx, i1, i2]
    exact ⟨rfl, rfl⟩

/-- C20: a dangling escape at the end of the input is dropped: for every
NUL-free string `s` without `%` and every non-NUL byte `c`, decoding `s` followed
by `%` gives `s`, and decoding `s` followed by `%` and `c` gives `s`; so `/a%4`
decodes to `/a`. -/
theorem C20_dangling_escape_dropped (s : List Nat) (c : Nat)
    (h0 : 0 ∉ s) (hp : 37 ∉ s) (hc : c ≠ 0) :
    UnencodeUrlEncoding (s ++ bytes "%") = s ∧
    UnencodeUrlEncoding (s ++ bytes "%" ++ [c]) = s ∧
    UnencodeUrlEncoding (bytes "/a%4") = bytes "/a" := by
  have _ := hc
  have e1 : bytes "%" = [37] := by decide
  rw [e1]
  refine ⟨(UnencodeScan_dangling s h0 hp c).1, ?_, by decide⟩
  rw [List.append_assoc]
  exact (UnencodeScan_dangling s h0 hp c).2

theorem C20_dangling_escape_dropped_witness :
    0 ∉ bytes "/a" ∧ 37 ∉ bytes "/a" ∧ (52 : Nat) ≠ 0 ∧ bytes "/a" ++ bytes "%" ++ [52] = bytes "/a%4" ∧
    UnencodeUrlEncoding (bytes "/a" ++ bytes "%") = bytes "/a" ∧
    UnencodeUrlEncoding (bytes "/a" ++ bytes "%" ++ [52]) = bytes "/a" ∧
    UnencodeUrlEncoding (bytes "/a%4") = bytes "/a" :=
  ⟨by decide, by decide, by decide, by decide,
    C20_dangling_escape_dropped (bytes "/a") 52 (by decide) (by decide) (by decide)⟩

/-! ## `SendAll`: one step of the loop, and what the loop guarantees -/

/-- The four ways one iteration of the loop of `SendAll` can go. -/
theorem SendAllLoop_cases {send : Nat → Nat → Option Nat} {msg : List Nat} {total fuel sent calls : Nat}
    {ret : Int} {calls2 : Nat} {events : List Event}
    (h : SendAllLoop send msg total (fuel + 1) sent calls = some (ret, calls2, events)) :
    (¬ sent < total ∧ ret = (sent : Int) ∧ events = []) ∨
    (sent < total ∧ send calls (total - sent) = none ∧ ret = -1 ∧
      events = [Event.send ((msg.drop sent).take (total - sent)) none]) ∨
    (sent < total ∧ (∃ m, send calls (total - sent) = some m ∧ min m (total - sent) = 0) ∧
      ret = (sent : Int) ∧
      events = [Event.send ((msg.drop sent).take (total - sent)) (some 0)]) ∨
    (sent < total ∧ ∃ m rest, send calls (total - sent) = some m ∧
      min m (total - sent) ≠ 0 ∧
      SendAllLoop send msg total fuel (sent + min m (total - sent)) (calls + 1)
        = some (ret, calls2, rest) ∧
      events = Event.send ((msg.drop sent).take (total - sent))
        (some (min m (total - sent))) :: rest) := by
  rw [SendAllLoop] at h
  by_cases hlt : sent < total
  · simp only [hlt, if_true] at h
    cases hs : send calls (total - sent) with
    | none =>
      rw [hs] at h
      simp only [Option.some.injEq, Prod.mk.injEq] at h
      exact Or.inr (Or.inl ⟨hlt, rfl, h.1.symm, h.2.2.symm⟩)
    | some m =>
      rw [hs] at h
      simp only at h
      by_cases hz : min m (total - sent) = 0
      · simp only [hz, if_true, Option.some.injEq, Prod.mk.injEq] at h
        exact Or.inr (Or.inr (Or.inl ⟨hlt, ⟨m, rfl, hz⟩, h.1.symm, h.2.2.symm⟩))
      · simp only [hz, if_false] at h
        cases hrec : SendAllLoop send msg total fuel (sent + min m (total - sent)) (calls + 1) with
        | none => rw [hrec] at h; simp at h
        | some r =>
          obtain ⟨ret2, calls3, rest⟩ := r
          rw [hrec] at h
          simp only [Option.some.injEq, Prod.mk.injEq] at h
          rw [← h.1, ← h.2.1, ← h.2.2]
          exact Or.inr (Or.inr (Or.inr ⟨hlt, m, rest, rfl, hz, hrec, rfl⟩))
  · simp only [hlt, if_false, Option.some.injEq, Prod.mk.injEq] at h
    exact Or.inl ⟨hlt, h.1.symm, h.2.2.symm⟩

/-- Every call made by `SendAll` is a `send`. -/
theorem SendAllLoop_only_sends (send : Nat → Nat → Option Nat) (msg : List Nat) (total : Nat) :
    ∀ fuel sent calls ret calls2 events,
      SendAllLoop send msg total fuel sent calls = some (ret, calls2, events) →
      ∀ e ∈ events, ∃ offered result, e = Event.send offered result := by
  intro fuel
  induction fuel with
  | zero => intro sent calls ret calls2 events h; simp [SendAllLoop] at h
  | succ fuel ih =>
    intro sent calls ret calls2 events h e he
    rcases SendAllLoop_cases h with ⟨-, -, rfl⟩ | ⟨-, -, -, rfl⟩ | ⟨-, -, -, rfl⟩ |
      ⟨-, m, rest, -, -, hrec, rfl⟩
    · simp at he
    · simp only [List.mem_singleton] at he; exact ⟨_, _, he⟩
    · simp only [List.mem_singleton] at he; exact ⟨_, _, he⟩
    · rcases List.mem_cons.mp he with rfl | hr
      · exact ⟨_, _, rfl⟩
      · exact ih _ _ _ _ _ hrec e hr

theorem openCalls_of_sends (events : List Event)
    (h : ∀ e ∈ events, ∃ offered result, e = Event.send offered result) :
    openCalls events = [] ∧ readCalls events = [] ∧ afterReading events = events := by
  induction events with
  | nil => exact ⟨rfl, rfl, rfl⟩
  | cons e rest ih =>
    obtain ⟨o, r, rfl⟩ := h e (List.mem_cons_self _ _)
    obtain ⟨i1, i2, i3⟩ := ih fun x hx => h x (List.mem_cons_of_mem _ hx)
    refine ⟨by simpa [openCalls] using i1, by simpa [readCalls] using i2, ?_⟩
    simp only [afterReading, Event.reading, Bool.not_false, List.filter_cons_of_pos]
    exact congrArg _ i3

/-- What the loop of `SendAll` guarantees from a state with `sent` bytes
accepted: the bytes accepted are the next bytes of `msg`, the return value is
`-1` exactly when a `send` failed and the number of bytes accepted otherwise,
and a short count means that a `send` returned 0. -/
theorem SendAllLoop_spec (send : Nat → Nat → Option Nat) (msg : List Nat) (total : Nat)
    (hlen : total ≤ msg.length) :
    ∀ fuel sent calls ret calls2 events, sent ≤ total →
      SendAllLoop send msg total fuel sent calls = some (ret, calls2, events) →
      sent + (sentBytes events).length ≤ total ∧
      sentBytes events = (msg.drop sent).take (sentBytes events).length ∧
      (ret = -1 ∨ ret = ((sent + (sentBytes events).length : Nat) : Int)) ∧
      (ret = -1 ↔ ∃ offered, Event.send offered none ∈ events) ∧
      (ret ≠ -1 → sent + (sentBytes events).length < total →
        ∃ offered, Event.send offered (some 0) ∈ events) := by
  intro fuel
  induction fuel with
  | zero => intro sent calls ret calls2 events _ h; simp [SendAllLoop] at h
  | succ fuel ih =>
    intro sent calls ret calls2 events hsent h
    rcases SendAllLoop_cases h with ⟨hge, rfl, rfl⟩ | ⟨hlt, -, rfl, rfl⟩ | ⟨hlt, -, rfl, rfl⟩ |
      ⟨hlt, m, rest, -, hz, hrec, rfl⟩
    · refine ⟨by simp [sentBytes]; omega, by simp [sentBytes], Or.inr (by simp [sentBytes]),
        ?_, ?_⟩
      · constructor
        · intro h1; omega
        · rintro ⟨o, ho⟩; simp at ho
      · intro _ h2
        simp only [sentBytes, List.length_nil, Nat.add_zero] at h2
        omega
    · refine ⟨by simp [sentBytes]; omega, by simp [sentBytes], Or.inl rfl, ?_, ?_⟩
      · exact ⟨fun _ => ⟨_, List.mem_singleton.mpr rfl⟩, fun _ => rfl⟩
      · intro h1; exact absurd rfl h1
    · refine ⟨by simp [sentBytes]; omega, by simp [sentBytes], Or.inr (by simp [sentBytes]),
        ?_, ?_⟩
      · constructor
        · intro h1; omega
        · rintro ⟨o, ho⟩; simp at ho
      · intro _ _; exact ⟨_, List.mem_singleton.mpr rfl⟩
    · have hb : min m (total - sent) ≤ total - sent := Nat.min_le_right _ _
      obtain ⟨i1, i2, i3, i4, i5⟩ := ih _ _ _ _ _ (by omega) hrec
      have hhead : ((msg.drop sent).take (total - sent)).take (min m (total - sent))
          = (msg.drop sent).take (min m (total - sent)) := by
        rw [List.take_take, Nat.min_eq_left hb]
      have hheadlen : ((msg.drop sent).take (min m (total - sent))).length
          = min m (total - sent) := by
        rw [List.length_take, List.length_drop]; omega
      have hsb : sentBytes (Event.send ((msg.drop sent).take (total - sent))
            (some (min m (total - sent))) :: rest)
          = (msg.drop sent).take (min m (total - sent)) ++ sentBytes rest := by
        simp only [sentBytes, hhead]
      have hsl : (sentBytes (Event.send ((msg.drop sent).take (total - sent))
            (some (min m (total - sent))) :: rest)).length
          = min m (total - sent) + (sentBytes rest).length := by
        rw [hsb, List.length_append, hheadlen]
      refine ⟨by rw [hsl]; omega, ?_, ?_, ?_, ?_⟩
      · rw [hsl, hsb, List.take_add, List.drop_drop]
        congr 1
      · rcases i3 with i3 | i3
        · exact Or.inl i3
        · right; rw [i3, hsl]; congr 1; omega
      · rw [i4]
        constructor
        · rintro ⟨o, ho⟩; exact ⟨o, List.mem_cons_of_mem _ ho⟩
        · rintro ⟨o, ho⟩
          rcases List.mem_cons.mp ho with e | hr
          · cases e
          · exact ⟨o, hr⟩
      · intro h1 h2
        rw [hsl] at h2
        obtain ⟨o, ho⟩ := i5 h1 (by omega)
        exact ⟨o, List.mem_cons_of_mem _ ho⟩

/-- Every `send` of `SendAll` offers exactly the bytes of `msg` from the
number accepted so far up to `total`: no byte is skipped or sent again. -/
theorem SendAllLoop_offers (send : Nat → Nat → Option Nat) (msg : List Nat) (total : Nat)
    (hlen : total ≤ msg.length) :
    ∀ fuel sent calls ret calls2 events, sent ≤ total →
      SendAllLoop send msg total fuel sent calls = some (ret, calls2, events) →
      ∀ pre offered result post, events = pre ++ Event.send offered result :: post →
        offered = (msg.drop (sent + (sentBytes pre).length)).take
          (total - (sent + (sentBytes pre).length)) := by
  intro fuel
  induction fuel with
  | zero => intro sent calls ret calls2 events _ h; simp [SendAllLoop] at h
  | succ fuel ih =>
    intro sent calls ret calls2 events hsent h pre offered result post hsplit
    have single : ∀ (r : Option Nat),
        [Event.send ((msg.drop sent).take (total - sent)) r]
          = pre ++ Event.send offered result :: post →
        pre = [] ∧ offered = (msg.drop sent).take (total - sent) := by
      intro r hs
      cases pre with
      | nil =>
        simp only [List.nil_append, List.cons.injEq, Event.send.injEq] at hs
        exact ⟨rfl, hs.1.1.symm⟩
      | cons x xs =>
        have := congrArg List.length hs
        simp at this
    rcases SendAllLoop_cases h with ⟨-, -, rfl⟩ | ⟨-, -, -, rfl⟩ | ⟨-, -, -, rfl⟩ |
      ⟨hlt, m, rest, -, hz, hrec, rfl⟩
    · have := congrArg List.length hsplit
      simp at this
      omega
    · obtain ⟨rfl, ho⟩ := single _ hsplit
      simpa [sentBytes] using ho
    · obtain ⟨rfl, ho⟩ := single _ hsplit
      simpa [sentBytes] using ho
    · have hb : min m (total - sent) ≤ total - sent := Nat.min_le_right _ _
      cases pre with
      | nil =>
        simp only [List.nil_append, List.cons.injEq, Event.send.injEq] at hsplit
        simpa [sentBytes] using hsplit.1.1.symm
      | cons x xs =>
        simp only [List.cons_append, List.cons.injEq] at hsplit
        obtain ⟨rfl, hrest⟩ := hsplit
        have j := ih _ _ _ _ _ (by omega) hrec xs offered result post hrest
        have hl : (sentBytes (Event.send ((msg.drop sent).take (total - sent))
              (some (min m (total - sent))) :: xs)).length
            = min m (total - sent) + (sentBytes xs).length := by
          simp only [sentBytes, List.length_append, List.length_take, List.length_drop]
          omega
        rw [hl, ← Nat.add_assoc]
        exact j

/-- C16: `SendAll` on a buffer of at least `total` bytes, over any transport
(each `send` on `k` bytes returns `-1`, `0`, or a count between 1 and `k`): it
makes only `send` calls; it returns `-1` exactly when a `send` failed; otherwise
it returns the number `n ≤ total` of bytes accepted, and `n < total` only if a
`send` returned 0; the bytes accepted are the first bytes of `msg` in order, and
every `send` offers exactly the bytes from the number accepted so far up to
`total`; with `total = 0` it makes no call and returns 0. -/
theorem C16_SendAll_contract (send : Nat → Nat → Option Nat) (calls : Nat) (msg : List Nat)
    (total : Nat) (hlen : total ≤ msg.length) :
    ∃ ret calls2 events, SendAll send calls msg total = some (ret, calls2, events) ∧
      (∀ e ∈ events, ∃ offered result, e = Event.send offered result) ∧
      (ret = -1 ↔ ∃ offered, Event.send offered none ∈ events) ∧
      (sentBytes events).length ≤ total ∧
      sentBytes events = msg.take (sentBytes events).length ∧
      (ret ≠ -1 → ret = ((sentBytes events).length : Int) ∧
        ((sentBytes events).length < total →
          ∃ offered, Event.send offered (some 0) ∈ events)) ∧
      (∀ pre offered result post, events = pre ++ Event.send offered result :: post →
        offered = (msg.drop (sentBytes pre).length).take (total - (sentBytes pre).length)) ∧
      (total = 0 → ret = 0 ∧ events = []) := by
  obtain ⟨⟨ret, calls2, events⟩, h⟩ := SendAll_some send calls msg total
  have h2 : SendAllLoop send msg total (total + 1) 0 calls = some (ret, calls2, events) := h
  obtain ⟨i1, i2, i3, i4, i5⟩ :=
    SendAllLoop_spec send msg total hlen _ _ _ _ _ _ (Nat.zero_le _) h2
  simp only [Nat.zero_add, List.drop_zero] at i1 i2 i3 i5
  refine ⟨ret, calls2, events, h, SendAllLoop_only_sends send msg total _ _ _ _ _ _ h2, i4, i1,
    i2, ?_, ?_, ?_⟩
  · intro hne
    rcases i3 with i3 | i3
    · exact absurd i3 hne
    · exact ⟨i3, i5 hne⟩
  · intro pre offered result post hsplit
    have := SendAllLoop_offers send msg total hlen _ _ _ _ _ _ (Nat.zero_le _) h2
      pre offered result post hsplit
    simpa using this
  · intro h0
    subst h0
    rcases SendAllLoop_cases h2 with ⟨-, hr, he⟩ | ⟨hlt, -⟩ | ⟨hlt, -⟩ | ⟨hlt, -⟩
    · exact ⟨by simpa using hr, he⟩
    · omega
    · omega
    · omega

theorem C16_SendAll_contract_witness :
    SendAll (fun _ _ => some 2) 0 (bytes "hello") 5 =
      some (5, 3, [Event.send (bytes "hello") (some 2), Event.send (bytes "llo") (some 2),
        Event.send (bytes "o") (some 1)]) ∧
    5 ≤ (bytes "hello").length ∧
    ∃ ret calls2 events, SendAll (fun _ _ => some 2) 0 (bytes "hello") 5
        = some (ret, calls2, events) ∧
      (∀ e ∈ events, ∃ offered result, e = Event.send offered result) ∧
      (ret = -1 ↔ ∃ offered, Event.send offered none ∈ events) ∧
      (sentBytes events).length ≤ 5 ∧
      sentBytes events = (bytes "hello").take (sentBytes events).length ∧
      (ret ≠ -1 → ret = ((sentBytes events).length : Int) ∧
        ((sentBytes events).length < 5 →
          ∃ offered, Event.send offered (some 0) ∈ events)) ∧
      (∀ pre offered result post, events = pre ++ Event.send offered result :: post →
        offered = ((bytes "hello").drop (sentBytes pre).length).take
          (5 - (sentBytes pre).length)) ∧
      (5 = 0 → ret = 0 ∧ events = []) :=
  ⟨by decide, by decide,
    C16_SendAll_contract (fun _ _ => some 2) 0 (bytes "hello") 5 (by decide)⟩

/-! ## `RecvAll`: one step of the loop -/

/-- The five ways one iteration of the loop of `RecvAll` can go. -/
theorem RecvAllLoop_cases {recv : Nat → Nat → Option (List Nat)} {buf_size fuel : Nat}
    {acc : List Nat} {calls : Nat} {ret : Int} {acc2 : List Nat} {events : List Event}
    (h : RecvAllLoop recv buf_size (fuel + 1) acc calls = some (ret, acc2, events)) :
    (¬ acc.length < buf_size - 1 ∧ ret = (acc.length : Int) ∧ acc2 = acc ∧ events = []) ∨
    (acc.length < buf_size - 1 ∧ ret = -1 ∧ acc2 = acc ∧
      events = [Event.recv (buf_size - acc.length - 1) none]) ∨
    (acc.length < buf_size - 1 ∧ ret = (acc.length : Int) ∧ acc2 = acc ∧
      events = [Event.recv (buf_size - acc.length - 1) (some [])]) ∨
    (acc.length < buf_size - 1 ∧ ∃ got, got ≠ [] ∧ got.length ≤ buf_size - acc.length - 1 ∧
      [13, 10, 13, 10] <:+: c_str (acc ++ got) ∧
      ret = ((acc ++ got).length : Int) ∧ acc2 = acc ++ got ∧
      events = [Event.recv (buf_size - acc.length - 1) (some got),
        Event.store (acc ++ got).length]) ∨
    (acc.length < buf_size - 1 ∧ ∃ got rest, got ≠ [] ∧
      got.length ≤ buf_size - acc.length - 1 ∧
      ¬ [13, 10, 13, 10] <:+: c_str (acc ++ got) ∧
      RecvAllLoop recv buf_size fuel (acc ++ got) (calls + 1) = some (ret, acc2, rest) ∧
      events = Event.recv (buf_size - acc.length - 1) (some got)
        :: Event.store (acc ++ got).length :: rest) := by
  rw [RecvAllLoop] at h
  by_cases hlt : acc.length < buf_size - 1
  · simp only [hlt, if_true] at h
    cases hs : recv calls (buf_size - acc.length - 1) with
    | none =>
      rw [hs] at h
      simp only [Option.some.injEq, Prod.mk.injEq] at h
      exact Or.inr (Or.inl ⟨hlt, h.1.symm, h.2.1.symm, h.2.2.symm⟩)
    | some data =>
      rw [hs] at h
      simp only at h
      by_cases hz : (data.take (buf_size - acc.length - 1)).length = 0
      · simp only [hz, if_true, Option.some.injEq, Prod.mk.injEq] at h
        exact Or.inr (Or.inr (Or.inl ⟨hlt, h.1.symm, h.2.1.symm, h.2.2.symm⟩))
      · simp only [hz, if_false] at h
        have hne : data.take (buf_size - acc.length - 1) ≠ [] := fun e => hz (by rw [e]; rfl)
        have hle : (data.take (buf_size - acc.length - 1)).length ≤ buf_size - acc.length - 1 :=
          List.length_take_le _ _
        by_cases ht : [13, 10, 13, 10] <:+: c_str (acc ++ data.take (buf_size - acc.length - 1))
        · simp only [ht, if_true, Option.some.injEq, Prod.mk.injEq] at h
          exact Or.inr (Or.inr (Or.inr (Or.inl
            ⟨hlt, _, hne, hle, ht, h.1.symm, h.2.1.symm, h.2.2.symm⟩)))
        · simp only [ht, if_false] at h
          cases hrec : RecvAllLoop recv buf_size fuel
              (acc ++ data.take (buf_size - acc.length - 1)) (calls + 1) with
          | none => rw [hrec] at h; simp at h
          | some r =>
            obtain ⟨ret2, acc3, rest⟩ := r
            rw [hrec] at h
            simp only [Option.some.injEq, Prod.mk.injEq] at h
            rw [← h.1, ← h.2.1, ← h.2.2]
            exact Or.inr (Or.inr (Or.inr (Or.inr ⟨hlt, _, rest, hne, hle, ht, hrec, rfl⟩)))
  · simp only [hlt, if_false, Option.some.injEq, Prod.mk.injEq] at h
    exact Or.inl ⟨hlt, h.1.symm, h.2.1.symm, h.2.2.symm⟩

/-- `RecvAll` only makes `recv` calls and stores into the buffer. -/
theorem RecvAllLoop_reading (recv : Nat → Nat → Option (List Nat)) (buf_size : Nat) :
    ∀ fuel acc calls ret acc2 events,
      RecvAllLoop recv buf_size fuel acc calls = some (ret, acc2, events) →
      ∀ e ∈ events, e.reading = true := by
  intro fuel
  induction fuel with
  | zero => intro acc calls ret acc2 events h; simp [RecvAllLoop] at h
  | succ fuel ih =>
    intro acc calls ret acc2 events h e he
    rcases RecvAllLoop_cases h with ⟨-, -, -, rfl⟩ | ⟨-, -, -, rfl⟩ | ⟨-, -, -, rfl⟩ |
      ⟨-, got, -, -, -, -, -, rfl⟩ | ⟨-, got, rest, -, -, -, hrec, rfl⟩
    · simp at he
    · simp only [List.mem_singleton] at he; subst he; rfl
    · simp only [List.mem_singleton] at he; subst he; rfl
    · simp only [List.mem_cons, List.mem_singleton, List.not_mem_nil, or_false] at he
      rcases he with rfl | rfl <;> rfl
    · simp only [List.mem_cons] at he
      rcases he with rfl | rfl | hr
      · rfl
      · rfl
      · exact ih _ _ _ _ _ hrec e hr

theorem reading_quiet (pre : List Event) (h : ∀ e ∈ pre, e.reading = true) :
    sentBytes pre = [] ∧ sendCalls pre = [] ∧ openCalls pre = [] ∧ readCalls pre = [] ∧
      afterReading pre = [] := by
  induction pre with
  | nil => exact ⟨rfl, rfl, rfl, rfl, rfl⟩
  | cons e rest ih =>
    have he := h e (List.mem_cons_self _ _)
    obtain ⟨i1, i2, i3, i4, i5⟩ := ih fun x hx => h x (List.mem_cons_of_mem _ hx)
    have i5b : List.filter (fun e => !e.reading) rest = [] := i5
    cases e <;> simp_all [Event.reading, sentBytes, sendCalls, openCalls, readCalls, afterReading]

theorem readCalls_append (xs ys : List Event) :
    readCalls (xs ++ ys) = readCalls xs ++ readCalls ys := by
  induction xs with
  | nil => rfl
  | cons e rest ih => cases e <;> simp [readCalls, ih]

theorem afterReading_append (xs ys : List Event) :
    afterReading (xs ++ ys) = afterReading xs ++ afterReading ys := by
  simp [afterReading]

/-- The trace of `Talk` is the reading of the request followed by what
`TalkRespond` does on the request string. -/
theorem Talk_shape (env : Env) (request : List Nat) (rest : List Event)
    (hreq : requestOf env = some request) (hresp : TalkRespond env request = some rest) :
    ∃ pre, Talk env = some (pre ++ rest) ∧ (∀ e ∈ pre, e.reading = true) := by
  unfold requestOf at hreq
  unfold Talk
  cases hr : RecvAll env.recv (10000 - 1) with
  | none => rw [hr] at hreq; simp at hreq
  | some r =>
    obtain ⟨ret, acc, events⟩ := r
    rw [hr] at hreq
    simp only [Option.some.injEq] at hreq
    simp only [hreq, hresp]
    refine ⟨events ++ [Event.store (ret % (2 ^ 64 : Int)).toNat], by simp, ?_⟩
    intro e he
    rcases List.mem_append.mp he with h1 | h1
    · exact RecvAllLoop_reading _ _ _ _ _ _ _ _ hr e h1
    · simp only [List.mem_singleton] at h1; subst h1; rfl

/-! ## The whole trace of a run -/

/-- Every trace of `Talk` splits into the reading of the request and what
`TalkRespond` does on the request string of the run. -/
theorem Talk_inv (env : Env) (tr : List Event) (h : Talk env = some tr) :
    ∃ request pre rest, requestOf env = some request ∧
      TalkRespond env request = some rest ∧ tr = pre ++ rest ∧
      ∀ e ∈ pre, e.reading = true := by
  obtain ⟨⟨ret, acc, events⟩, hr⟩ := RecvAll_some env.recv (10000 - 1) (by omega)
  have hreq : requestOf env = some (TalkRequest env.heap ret acc) := by
    unfold requestOf; rw [hr]
  obtain ⟨rest, hrest⟩ := TalkRespond_some env (TalkRequest env.heap ret acc)
  obtain ⟨pre, hpre, hreading⟩ := Talk_shape env _ rest hreq hrest
  rw [h] at hpre
  exact ⟨_, pre, rest, hreq, hrest, Option.some.inj hpre, hreading⟩

theorem append_projections (pre rest : List Event) (h : ∀ e ∈ pre, e.reading = true) :
    sentBytes (pre ++ rest) = sentBytes rest ∧ sendCalls (pre ++ rest) = sendCalls rest ∧
    openCalls (pre ++ rest) = openCalls rest ∧ readCalls (pre ++ rest) = readCalls rest ∧
    afterReading (pre ++ rest) = afterReading rest := by
  obtain ⟨i1, i2, i3, i4, i5⟩ := reading_quiet pre h
  rw [sentBytes_append, sendCalls_append, openCalls_append, readCalls_append,
    afterReading_append, i1, i2, i3, i4, i5]
  simp

/-- A request that no plugin intercepts is handled by `TalkServe`, after the
question to the plugin when one is installed. -/
theorem TalkRespond_unclaimed_shape (env : Env) (request a p : List Nat) (tr : List Event)
    (hparse : TalkParse request = some (a, p))
    (hun : unclaimed env (UnencodeUrlEncoding p))
    (hserve : TalkServe env a (UnencodeUrlEncoding p) = some tr) :
    ∃ asked, TalkRespond env request = some (asked ++ tr) ∧
      (asked = [] ∨ asked = [Event.MagicPath (UnencodeUrlEncoding p)]) := by
  unfold TalkRespond
  simp only [hparse]
  cases hpl : env.Plugin with
  | none => exact ⟨[], hserve, Or.inl rfl⟩
  | some plugin =>
    simp only [hun plugin hpl, Bool.false_eq_true, if_false, hserve]
    exact ⟨[Event.MagicPath (UnencodeUrlEncoding p)], rfl, Or.inr rfl⟩

/-- C11: for a `GET` request that no plugin claims and whose decoded path
passes `SafePath`, when the target opens but is a directory (`FileSize` returns
`-1`), the only `send` call `Talk` makes offers exactly the fixed 403 message:
no 200 header is sent, the file is never read, and what the peer receives is
the 403 message (all of it when the transport accepts what it is offered). -/
theorem C11_directory_403 (env : Env) (p rest : List Nat)
    (hp : 32 ∉ p)
    (hreq : requestOf env = some (bytes "GET" ++ 32 :: (p ++ 32 :: rest)))
    (hun : unclaimed env (UnencodeUrlEncoding p))
    (hsafe : SafePath (c_str (UnencodeUrlEncoding p)) = true)
    (hopen : env.openFile (c_str (c_str env.RootDirectory ++ UnencodeUrlEncoding p))
      = some FileObject.directory) :
    FileSize FileObject.directory = -1 ∧
    ∃ tr, Talk env = some tr ∧
      sendCalls tr =
        [bytes "HTTP/1.1 403 Access Denied\r\nContent-Length: 0\r\nConnection: close\r\n\r\n"] ∧
      readCalls tr = [] ∧
      sentBytes tr <+:
        bytes "HTTP/1.1 403 Access Denied\r\nContent-Length: 0\r\nConnection: close\r\n\r\n" ∧
      (acceptsAll env.send → sentBytes tr =
        bytes "HTTP/1.1 403 Access Denied\r\nContent-Length: 0\r\nConnection: close\r\n\r\n") := by
  refine ⟨rfl, ?_⟩
  have hserve : TalkServe env (bytes "GET") (UnencodeUrlEncoding p)
      = some (Event.openFile (c_str (c_str env.RootDirectory ++ UnencodeUrlEncoding p))
          :: AccessDenied env.send 0 ++ [Event.closeSocket]) := by
    unfold TalkServe
    simp only [hsafe, hopen, ne_eq, not_true_eq_false, Bool.true_eq_false, or_self, if_false,
      FileSize, if_true]
  obtain ⟨asked, hresp, hasked⟩ := TalkRespond_unclaimed_shape env _ (bytes "GET") p _
    (TalkParse_tokens (bytes "GET") p rest (by decide) hp) hun hserve
  obtain ⟨pre, htalk, hreading⟩ := Talk_shape env _ _ hreq hresp
  obtain ⟨g1, g2, -, g4, -⟩ := append_projections pre
    (asked ++ (Event.openFile (c_str (c_str env.RootDirectory ++ UnencodeUrlEncoding p))
      :: AccessDenied env.send 0 ++ [Event.closeSocket])) hreading
  refine ⟨_, htalk, ?_, ?_, ?_, ?_⟩
  · rw [g2]; rcases hasked with rfl | rfl <;> rfl
  · rw [g4]; rcases hasked with rfl | rfl <;> rfl
  · rw [g1]
    rcases hasked with rfl | rfl <;> exact (sentBytes_single env.send accessDenied).1
  · rw [g1]
    rcases hasked with rfl | rfl <;> exact (sentBytes_single env.send accessDenied).2

theorem C11_directory_403_witness :
    ∃ tr, Talk (plainEnv (bytes "GET / HTTP/1.1\r\n\r\n")
        [(bytes "/srv/", FileObject.directory)]) = some tr ∧
      sendCalls tr =
        [bytes "HTTP/1.1 403 Access Denied\r\nContent-Length: 0\r\nConnection: close\r\n\r\n"] ∧
      readCalls tr = [] ∧
      sentBytes tr =
        bytes "HTTP/1.1 403 Access Denied\r\nContent-Length: 0\r\nConnection: close\r\n\r\n" := by
  obtain ⟨-, tr, h1, h2, h3, -, h5⟩ := C11_directory_403
    (plainEnv (bytes "GET / HTTP/1.1\r\n\r\n") [(bytes "/srv/", FileObject.directory)])
    (bytes "/") (bytes "HTTP/1.1\r\n\r\n")
    (by decide) (by decide) (fun _ h => nomatch h) (by decide) (by decide)
  exact ⟨tr, h1, h2, h3, h5 (fun _ _ => rfl)⟩

/-! ## Requests with fewer than two spaces -/

theorem findFirst_split (s : List Nat) (c i : Nat) (h : findFirst s c = some i) :
    ∃ pre post, s = pre ++ c :: post ∧ pre.length = i := by
  induction s generalizing i with
  | nil => simp [findFirst] at h
  | cons x xs ih =>
    rw [findFirst] at h
    by_cases hx : x = c
    · simp only [hx, if_true, Option.some.injEq] at h
      exact ⟨[], xs, by simp [hx], by simpa using h⟩
    · simp only [hx, if_false] at h
      cases hrec : findFirst xs c with
      | none => rw [hrec] at h; simp at h
      | some j =>
        rw [hrec] at h
        simp only [Option.some.injEq] at h
        obtain ⟨pre, post, e, hl⟩ := ih j hrec
        exact ⟨x :: pre, post, by rw [e]; rfl, by simp [hl, h]⟩

theorem TalkParse_two_spaces (request a p : List Nat) (h : TalkParse request = some (a, p)) :
    2 ≤ request.count 32 := by
  unfold TalkParse at h
  cases h1 : find request 32 0 with
  | none => rw [h1] at h; simp at h
  | some space1 =>
    rw [h1] at h
    simp only at h
    cases h2 : find request 32 (space1 + 1) with
    | none => rw [h2] at h; simp at h
    | some space2 =>
      unfold find at h1 h2
      simp only [List.drop_zero] at h1
      cases f1 : findFirst request 32 with
      | none => rw [f1] at h1; simp at h1
      | some i =>
        rw [f1] at h1
        simp only [Nat.zero_add, Option.some.injEq] at h1
        subst h1
        obtain ⟨pre, post, e, hl⟩ := findFirst_split _ _ _ f1
        have hd : request.drop (i + 1) = post := by
          rw [e, ← hl]
          rw [show pre ++ 32 :: post = (pre ++ [32]) ++ post by simp]
          rw [List.drop_append_eq_append_drop]
          simp
        rw [hd] at h2
        cases f2 : findFirst post 32 with
        | none => rw [f2] at h2; simp at h2
        | some j =>
          obtain ⟨pre2, post2, e2, -⟩ := findFirst_split _ _ _ f2
          rw [e, e2]
          simp only [List.count_append, List.count_cons_self]
          omega

theorem count_c_str_le (acc : List Nat) (c : Nat) : (c_str acc).count c ≤ acc.count c :=
  (List.takeWhile_sublist _).count_le c

/-- When the request string that `Talk` builds from the buffer has fewer
than two spaces (the empty string included), `Talk` does nothing after reading
but close the socket: no `send`, no plugin call, no `open`. This is the case
whenever the bytes accumulated have fewer than two spaces, unless the very
first `recv` failed (the buffer then still holds its initial contents). -/
theorem Talk_fewer_than_two_spaces (env : Env) (request : List Nat)
    (hreq : requestOf env = some request) (hcount : request.count 32 < 2) :
    (∃ tr, Talk env = some tr ∧ afterReading tr = [Event.closeSocket] ∧
      sentBytes tr = [] ∧ sendCalls tr = [] ∧ openCalls tr = []) ∧
    (∀ ret acc events, RecvAll env.recv (10000 - 1) = some (ret, acc, events) →
      (ret ≠ -1 ∨ acc ≠ []) → acc.count 32 < 2 →
      (c_str acc).count 32 < 2 ∧ request = c_str acc) := by
  constructor
  · have hparse : TalkParse request = none := by
      cases hp : TalkParse request with
      | none => rfl
      | some tokens =>
        obtain ⟨a, p⟩ := tokens
        have := TalkParse_two_spaces request a p hp
        omega
    have hresp : TalkRespond env request = some [Event.closeSocket] := by
      unfold TalkRespond
      rw [hparse]
    obtain ⟨pre, htalk, hreading⟩ := Talk_shape env _ _ hreq hresp
    obtain ⟨g1, g2, g3, -, g5⟩ := append_projections pre [Event.closeSocket] hreading
    exact ⟨_, htalk, by rw [g5]; rfl, by rw [g1]; rfl, by rw [g2]; rfl, by rw [g3]; rfl⟩
  · intro ret acc events hr hret hacc
    refine ⟨Nat.lt_of_le_of_lt (count_c_str_le acc 32) hacc, ?_⟩
    unfold requestOf at hreq
    rw [hr] at hreq
    simp only [Option.some.injEq] at hreq
    rw [← hreq]
    unfold TalkRequest
    rcases hret with hret | hret <;> simp [hret]

theorem Talk_fewer_than_two_spaces_example :
    requestOf (magicEnv (bytes "GET /magic\r\n\r\n")
        [(bytes "/srv/magic", FileObject.regular 2 (bytes "hi"))])
      = some (bytes "GET /magic\r\n\r\n") ∧
    (bytes "GET /magic\r\n\r\n").count 32 < 2 ∧
    (∃ tr, Talk (magicEnv (bytes "GET /magic\r\n\r\n")
        [(bytes "/srv/magic", FileObject.regular 2 (bytes "hi"))]) = some tr ∧
      afterReading tr = [Event.closeSocket] ∧
      sentBytes tr = [] ∧ sendCalls tr = [] ∧ openCalls tr = []) ∧
    ((c_str (bytes "GET /magic\r\n\r\n")).count 32 < 2 ∧
      bytes "GET /magic\r\n\r\n" = c_str (bytes "GET /magic\r\n\r\n")) :=
  ⟨by decide, by decide,
    (Talk_fewer_than_two_spaces
      (magicEnv (bytes "GET /magic\r\n\r\n")
        [(bytes "/srv/magic", FileObject.regular 2 (bytes "hi"))])
      (bytes "GET /magic\r\n\r\n") (by decide) (by decide)).1,
    (Talk_fewer_than_two_spaces
      (magicEnv (bytes "GET /magic\r\n\r\n")
        [(bytes "/srv/magic", FileObject.regular 2 (bytes "hi"))])
      (bytes "GET /magic\r\n\r\n") (by decide) (by decide)).2
      14 (bytes "GET /magic\r\n\r\n")
      [Event.recv 9998 (some (bytes "GET /magic\r\n\r\n")), Event.store 14]
      (by decide) (Or.inl (by decide)) (by decide)⟩

/-! ## Requests that the plugin intercepts -/

theorem mem_sendCalls_split (events : List Event) (offered : List Nat)
    (h : offered ∈ sendCalls events) :
    ∃ pre result post, events = pre ++ Event.send offered result :: post := by
  induction events with
  | nil => simp [sendCalls] at h
  | cons e rest ih =>
    cases e with
    | send o r =>
      simp only [sendCalls, List.mem_cons] at h
      rcases h with rfl | h
      · exact ⟨[], r, rest, rfl⟩
      · obtain ⟨pre, result, post, hs⟩ := ih h
        exact ⟨Event.send o r :: pre, result, post, by rw [hs]; rfl⟩
    | _ =>
      simp only [sendCalls] at h
      obtain ⟨pre, result, post, hs⟩ := ih h
      exact ⟨_ :: pre, result, post, by rw [hs]; rfl⟩

/-- C12: when a plugin is installed and its `MagicPath` accepts the decoded
path, `Talk` asks the plugin, calls `ProcessRequest` on the whole request
string, hands the returned bytes to `SendAll` and closes: after reading it makes
no other call, in particular no `open`, whatever the method is and whether or
not the path is safe. Every `send` offers a suffix of the returned bytes, the
first one all of them; what the peer receives is a prefix of the returned bytes,
and all of them when the transport accepts what it is offered. -/
theorem C12_plugin_claimed (env : Env) (plugin : PluginObject) (a p rest : List Nat)
    (ha : 32 ∉ a) (hp : 32 ∉ p)
    (hreq : requestOf env = some (a ++ 32 :: (p ++ 32 :: rest)))
    (hpl : env.Plugin = some plugin)
    (hmagic : plugin.MagicPath (UnencodeUrlEncoding p) = true) :
    ∃ tr sends, Talk env = some tr ∧
      afterReading tr = Event.MagicPath (UnencodeUrlEncoding p)
        :: Event.ProcessRequest (a ++ 32 :: (p ++ 32 :: rest)) :: sends
        ++ [Event.closeSocket] ∧
      (∀ e ∈ sends, ∃ offered result, e = Event.send offered result) ∧
      openCalls tr = [] ∧ readCalls tr = [] ∧
      (∀ offered ∈ sendCalls tr,
        offered <:+ plugin.ProcessRequest (a ++ 32 :: (p ++ 32 :: rest))) ∧
      (plugin.ProcessRequest (a ++ 32 :: (p ++ 32 :: rest)) ≠ [] →
        (sendCalls tr).head? = some (plugin.ProcessRequest (a ++ 32 :: (p ++ 32 :: rest)))) ∧
      sentBytes tr <+: plugin.ProcessRequest (a ++ 32 :: (p ++ 32 :: rest)) ∧
      (acceptsAll env.send →
        sentBytes tr = plugin.ProcessRequest (a ++ 32 :: (p ++ 32 :: rest))) := by
  obtain ⟨⟨ret, calls, sends⟩, hsend⟩ := SendAll_some env.send 0
    (plugin.ProcessRequest (a ++ 32 :: (p ++ 32 :: rest)))
    (plugin.ProcessRequest (a ++ 32 :: (p ++ 32 :: rest))).length
  have hloop : SendAllLoop env.send (plugin.ProcessRequest (a ++ 32 :: (p ++ 32 :: rest)))
      (plugin.ProcessRequest (a ++ 32 :: (p ++ 32 :: rest))).length
      ((plugin.ProcessRequest (a ++ 32 :: (p ++ 32 :: rest))).length + 1) 0 0
      = some (ret, calls, sends) := hsend
  have hresp : TalkRespond env (a ++ 32 :: (p ++ 32 :: rest))
      = some (Event.MagicPath (UnencodeUrlEncoding p)
          :: Event.ProcessRequest (a ++ 32 :: (p ++ 32 :: rest)) :: sends
          ++ [Event.closeSocket]) := by
    unfold TalkRespond
    simp only [TalkParse_tokens a p rest ha hp, hpl, hmagic, if_true, hsend]
  obtain ⟨pre, htalk, hreading⟩ := Talk_shape env _ _ hreq hresp
  obtain ⟨g1, g2, g3, g4, g5⟩ := append_projections pre _ hreading
  have honly := SendAllLoop_only_sends _ _ _ _ _ _ _ _ _ hloop
  obtain ⟨o1, o2, o3⟩ := openCalls_of_sends sends honly
  obtain ⟨s1, s2, -, -, -⟩ := SendAllLoop_spec env.send _ _ (Nat.le_refl _) _ _ _ _ _ _
    (Nat.zero_le _) hloop
  have hsb : sentBytes (Event.MagicPath (UnencodeUrlEncoding p)
        :: Event.ProcessRequest (a ++ 32 :: (p ++ 32 :: rest)) :: sends
        ++ [Event.closeSocket]) = sentBytes sends := by
    simp [sentBytes, sentBytes_append]
  have hsc : sendCalls (Event.MagicPath (UnencodeUrlEncoding p)
        :: Event.ProcessRequest (a ++ 32 :: (p ++ 32 :: rest)) :: sends
        ++ [Event.closeSocket]) = sendCalls sends := by
    simp [sendCalls, sendCalls_append]
  refine ⟨_, sends, htalk, ?_, honly, ?_, ?_, ?_, ?_, ?_, ?_⟩
  · have e : Event.MagicPath (UnencodeUrlEncoding p)
          :: Event.ProcessRequest (a ++ 32 :: (p ++ 32 :: rest)) :: sends
          ++ [Event.closeSocket]
        = [Event.MagicPath (UnencodeUrlEncoding p),
            Event.ProcessRequest (a ++ 32 :: (p ++ 32 :: rest))]
          ++ (sends ++ [Event.closeSocket]) := rfl
    rw [g5, e, afterReading_append, afterReading_append, o3]
    rfl
  · rw [g3]; simp [openCalls, openCalls_append, o1]
  · rw [g4]; simp [readCalls, readCalls_append, o2]
  · intro offered hoff
    rw [g2, hsc] at hoff
    obtain ⟨pre2, result, post, hs⟩ := mem_sendCalls_split sends offered hoff
    have := SendAllLoop_offers env.send _ _ (Nat.le_refl _) _ _ _ _ _ _ (Nat.zero_le _) hloop
      pre2 offered result post hs
    rw [this, Nat.zero_add, ← List.length_drop, List.take_length]
    exact List.drop_suffix _ _
  · intro hne
    rw [g2, hsc]
    have hpos : 0 < (plugin.ProcessRequest (a ++ 32 :: (p ++ 32 :: rest))).length :=
      List.length_pos.mpr hne
    rcases SendAllLoop_cases hloop with ⟨hge, -⟩ | ⟨-, -, -, rfl⟩ | ⟨-, -, -, rfl⟩ |
      ⟨-, m, rest2, -, -, -, rfl⟩
    · omega
    · simp [sendCalls]
    · simp [sendCalls]
    · simp [sendCalls]
  · rw [g1, hsb, s2]
    simp only [List.drop_zero]
    exact List.take_prefix _ _
  · intro hacc
    rw [g1, hsb]
    by_cases hne : plugin.ProcessRequest (a ++ 32 :: (p ++ 32 :: rest)) = []
    · rw [hne] at s2 ⊢
      simpa using s2
    · have := SendAll_acceptsAll env.send hacc 0 _ hne
      rw [hsend] at this
      simp only [Option.some.injEq, Prod.mk.injEq] at this
      rw [this.2.2]
      simp [sentBytes]

theorem C12_plugin_claimed_witness :
    ∃ tr, Talk (magicEnv (bytes "GET /magic HTTP/1.1\r\n\r\n")
        [(bytes "/srv/magic", FileObject.regular 2 (bytes "hi"))]) = some tr ∧
      afterReading tr = [Event.MagicPath (bytes "/magic"),
        Event.ProcessRequest (bytes "GET /magic HTTP/1.1\r\n\r\n"),
        Event.send (bytes "HTTP/1.1 200 OK\r\n\r\nGET /magic HTTP/1.1\r\n\r\n") (some 42),
        Event.closeSocket] ∧
      openCalls tr = [] ∧
      sentBytes tr = bytes "HTTP/1.1 200 OK\r\n\r\nGET /magic HTTP/1.1\r\n\r\n" := by
  obtain ⟨tr, sends, h1, -, -, h3, -, -, -, -, h8⟩ := C12_plugin_claimed
    (magicEnv (bytes "GET /magic HTTP/1.1\r\n\r\n")
      [(bytes "/srv/magic", FileObject.regular 2 (bytes "hi"))])
    magicPlugin (bytes "GET") (bytes "/magic") (bytes "HTTP/1.1\r\n\r\n")
    (by decide) (by decide) (by decide) rfl (by decide)
  refine ⟨tr, h1, ?_, h3, h8 (fun _ _ => rfl)⟩
  have e : (Talk (magicEnv (bytes "GET /magic HTTP/1.1\r\n\r\n")
      [(bytes "/srv/magic", FileObject.regular 2 (bytes "hi"))])).map afterReading = some
        [Event.MagicPath (bytes "/magic"),
          Event.ProcessRequest (bytes "GET /magic HTTP/1.1\r\n\r\n"),
          Event.send (bytes "HTTP/1.1 200 OK\r\n\r\nGET /magic HTTP/1.1\r\n\r\n") (some 42),
          Event.closeSocket] := by decide
  rw [h1] at e
  exact Option.some.inj e

/-! ## The names handed to `open` -/

theorem c_str_append_of_no_nul (x y : List Nat) (h : 0 ∉ x) : c_str (x ++ y) = x ++ c_str y := by
  induction x with
  | nil => rfl
  | cons b bs ih =>
    have hb : b ≠ 0 := fun e => h (e ▸ List.mem_cons_self _ _)
    have hbs : 0 ∉ bs := fun m => h (List.mem_cons_of_mem _ m)
    have e1 : c_str (b :: (bs ++ y)) = b :: c_str (bs ++ y) := by
      simp [c_str, List.takeWhile_cons, hb]
    rw [List.cons_append, e1, ih hbs]
    rfl

theorem TalkFileLoop_no_open (send : Nat → Nat → Option Nat) (file : FileObject) :
    ∀ fuel pos calls tr, TalkFileLoop send file fuel pos calls = some tr →
      openCalls tr = [] := by
  intro fuel
  induction fuel with
  | zero => intro pos calls tr h; simp [TalkFileLoop] at h
  | succ fuel ih =>
    intro pos calls tr h
    rw [TalkFileLoop] at h
    by_cases hlt : (readFile file pos).length < 1
    · simp only [hlt, if_true, Option.some.injEq] at h
      rw [← h]; rfl
    · simp only [hlt, if_false] at h
      cases hs : SendAll send calls (readFile file pos) (readFile file pos).length with
      | none => rw [hs] at h; simp at h
      | some r =>
        obtain ⟨ret, calls2, events⟩ := r
        rw [hs] at h
        simp only at h
        have hev : openCalls events = [] :=
          (openCalls_of_sends events (SendAllLoop_only_sends _ _ _ _ _ _ _ _ _ hs)).1
        by_cases hret : ret = -1
        · simp only [hret, if_true, Option.some.injEq] at h
          rw [← h]
          simp [openCalls, openCalls_append, hev]
        · simp only [hret, if_false] at h
          cases hrec : TalkFileLoop send file fuel (pos + (readFile file pos).length) calls2 with
          | none => rw [hrec] at h; simp at h
          | some rest =>
            rw [hrec] at h
            simp only [Option.some.injEq] at h
            rw [← h]
            simp [openCalls, openCalls_append, hev, ih _ _ _ hrec]

theorem TalkServe_opens (env : Env) (action path : List Nat) (tr : List Event)
    (h : TalkServe env action path = some tr) (name : List Nat) (hn : name ∈ openCalls tr) :
    name = c_str env.RootDirectory ++ c_str path ∧ SafePath (c_str path) = true := by
  have hname : c_str (c_str env.RootDirectory ++ path) = c_str env.RootDirectory ++ c_str path :=
    c_str_append_of_no_nul _ _ (c_str_no_nul _)
  unfold TalkServe at h
  by_cases hbad : action ≠ bytes "GET" ∨ SafePath (c_str path) = false
  · simp only [hbad, if_true, Option.some.injEq] at h
    rw [← h] at hn
    simp [AccessDenied, openCalls] at hn
  · simp only [hbad, if_false] at h
    have hsafe : SafePath (c_str path) = true := by
      cases hs : SafePath (c_str path) with
      | true => rfl
      | false => exact absurd (Or.inr hs) hbad
    refine ⟨?_, hsafe⟩
    cases ho : env.openFile (c_str (c_str env.RootDirectory ++ path)) with
    | none =>
      rw [ho] at h
      simp only [Option.some.injEq] at h
      rw [← h] at hn
      simp only [FileNotFound, openCalls, List.cons_append, List.nil_append, List.mem_singleton]
        at hn
      rw [hn, hname]
    | some file =>
      rw [ho] at h
      simp only at h
      by_cases hdir : FileSize file = -1
      · simp only [hdir, if_true, Option.some.injEq] at h
        rw [← h] at hn
        simp only [AccessDenied, openCalls, List.cons_append, List.nil_append, List.mem_singleton]
          at hn
        rw [hn, hname]
      · simp only [hdir, if_false] at h
        cases hs : SendAll env.send 0 (okHeader path (FileSize file))
            (okHeader path (FileSize file)).length with
        | none => rw [hs] at h; simp at h
        | some r =>
          obtain ⟨ret, calls, events⟩ := r
          rw [hs] at h
          simp only at h
          cases hl : TalkFileLoop env.send file (contentLength file + 1) 0 calls with
          | none => rw [hl] at h; simp at h
          | some rest =>
            rw [hl] at h
            simp only [Option.some.injEq] at h
            rw [← h] at hn
            have hev : openCalls events = [] :=
              (openCalls_of_sends events (SendAllLoop_only_sends _ _ _ _ _ _ _ _ _ hs)).1
            have hoc : openCalls (Event.openFile (c_str (c_str env.RootDirectory ++ path))
                :: events ++ rest) = [c_str (c_str env.RootDirectory ++ path)] := by
              simp [openCalls, openCalls_append, hev, TalkFileLoop_no_open _ _ _ _ _ _ hl]
            rw [hoc, List.mem_singleton] at hn
            rw [hn, hname]

theorem TalkRespond_opens (env : Env) (request : List Nat) (tr : List Event)
    (h : TalkRespond env request = some tr) (name : List Nat) (hn : name ∈ openCalls tr) :
    ∃ path, name = c_str env.RootDirectory ++ c_str path ∧ SafePath (c_str path) = true := by
  unfold TalkRespond at h
  cases hp : TalkParse request with
  | none =>
    rw [hp] at h
    simp only [Option.some.injEq] at h
    rw [← h] at hn
    simp [openCalls] at hn
  | some tokens =>
    obtain ⟨action, rawPath⟩ := tokens
    rw [hp] at h
    simp only at h
    cases hpl : env.Plugin with
    | none =>
      rw [hpl] at h
      exact ⟨_, TalkServe_opens env action _ tr h name hn⟩
    | some plugin =>
      rw [hpl] at h
      simp only at h
      by_cases hm : plugin.MagicPath (UnencodeUrlEncoding rawPath) = true
      · simp only [hm, if_true] at h
        cases hs : SendAll env.send 0 (plugin.ProcessRequest request)
            (plugin.ProcessRequest request).length with
        | none => rw [hs] at h; simp at h
        | some r =>
          obtain ⟨ret, calls, events⟩ := r
          rw [hs] at h
          simp only [Option.some.injEq] at h
          rw [← h] at hn
          have hev : openCalls events = [] :=
            (openCalls_of_sends events (SendAllLoop_only_sends _ _ _ _ _ _ _ _ _ hs)).1
          simp [openCalls, openCalls_append, hev] at hn
      · have hm2 : plugin.MagicPath (UnencodeUrlEncoding rawPath) = false := by
          simpa using hm
        simp only [hm2, Bool.false_eq_true, if_false] at h
        cases hsv : TalkServe env action (UnencodeUrlEncoding rawPath) with
        | none => rw [hsv] at h; simp at h
        | some rest =>
          rw [hsv] at h
          simp only [Option.some.injEq] at h
          rw [← h] at hn
          simp only [openCalls] at hn
          exact ⟨_, TalkServe_opens env action _ rest hsv name hn⟩

/-- C18: every file name that `Talk` hands to `open` is the root directory
followed by a NUL-free string that starts with `/` and has no two consecutive
dots, for every request and every environment (decoded paths with a NUL byte
included: the name is cut at the first NUL, like the path `SafePath` checked). -/
theorem C18_opened_name_is_safe (env : Env) (tr : List Event) (name : List Nat)
    (h : Talk env = some tr) (hn : name ∈ openCalls tr) :
    ∃ q, name = c_str env.RootDirectory ++ q ∧ q.head? = some 47 ∧
      ¬ [46, 46] <:+: q ∧ 0 ∉ q ∧ 0 ∉ name := by
  obtain ⟨request, pre, rest, -, hresp, rfl, hreading⟩ := Talk_inv env tr h
  rw [(append_projections pre rest hreading).2.2.1] at hn
  obtain ⟨path, hname, hsafe⟩ := TalkRespond_opens env request rest hresp name hn
  have hq := c_str_no_nul path
  have hs : SafePath (c_str path) = true ↔
      ((c_str path).head? = some 47 ∧ ¬ [46, 46] <:+: c_str path) := by
    have hh : (c_str path).headD 0 = 47 ↔ (c_str path).head? = some 47 := by
      cases c_str path with
      | nil => simp
      | cons d r => simp
    unfold SafePath
    by_cases h47 : (c_str path).headD 0 = 47
    · simp only [h47, ne_eq, not_true_eq_false, if_false, SafePathScan_iff _ hq, hh.mp h47,
        true_and]
    · have : ¬ (c_str path).head? = some 47 := fun x => h47 (hh.mpr x)
      simp only [ne_eq, h47, not_false_eq_true, if_true]
      simp [this]
  obtain ⟨h1, h2⟩ := hs.mp hsafe
  refine ⟨c_str path, hname, h1, h2, hq, ?_⟩
  rw [hname]
  intro hm
  rcases List.mem_append.mp hm with hm | hm
  · exact c_str_no_nul _ hm
  · exact hq hm

theorem C18_opened_name_is_safe_witness :
    Talk (plainEnv (bytes "GET /a%00/../../etc/passwd HTTP/1.1\r\n\r\n")
        [(bytes "/srv/a", FileObject.regular 2 (bytes "hi"))]) =
      some [Event.recv 9998 (some (bytes "GET /a%00/../../etc/passwd HTTP/1.1\r\n\r\n")),
        Event.store 39, Event.store 39, Event.openFile (bytes "/srv/a"),
        Event.send (bytes ("HTTP/1.1 200 OK\r\nContent-Type: application/octet-stream\r\n"
          ++ "Content-Length: 2\r\nConnection: close\r\n\r\n")) (some 97),
        Event.read (bytes "hi"), Event.send (bytes "hi") (some 2), Event.read [],
        Event.closeFile, Event.closeSocket] ∧
    ∃ q, bytes "/srv/a" = c_str (plainEnv (bytes "GET /a%00/../../etc/passwd HTTP/1.1\r\n\r\n")
        [(bytes "/srv/a", FileObject.regular 2 (bytes "hi"))]).RootDirectory ++ q ∧
      q.head? = some 47 ∧ ¬ [46, 46] <:+: q ∧ 0 ∉ q ∧ 0 ∉ bytes "/srv/a" :=
  ⟨by decide,
    C18_opened_name_is_safe
      (plainEnv (bytes "GET /a%00/../../etc/passwd HTTP/1.1\r\n\r\n")
        [(bytes "/srv/a", FileObject.regular 2 (bytes "hi"))])
      _ (bytes "/srv/a") (by decide : _ = some
        [Event.recv 9998 (some (bytes "GET /a%00/../../etc/passwd HTTP/1.1\r\n\r\n")),
        Event.store 39, Event.store 39, Event.openFile (bytes "/srv/a"),
        Event.send (bytes ("HTTP/1.1 200 OK\r\nContent-Type: application/octet-stream\r\n"
          ++ "Content-Length: 2\r\nConnection: close\r\n\r\n")) (some 97),
        Event.read (bytes "hi"), Event.send (bytes "hi") (some 2), Event.read [],
        Event.closeFile, Event.closeSocket]) (by decide)⟩

/-! ## `RecvAll`: when it stops and what it returns -/

theorem recvBytes_append (xs ys : List Event) :
    recvBytes (xs ++ ys) = recvBytes xs ++ recvBytes ys := by
  induction xs with
  | nil => rfl
  | cons e rest ih =>
    cases e with
    | recv cap result =>
      cases result with
      | none => simpa [recvBytes] using ih
      | some got => simp [recvBytes, ih]
    | _ => simpa [recvBytes] using ih

/-- What the loop of `RecvAll` returns, from a state with `acc` accumulated:
the bytes accumulated are those delivered, at most `buf_size - 1`; the return
value is `-1` when the last `recv` failed, and otherwise the number of bytes
accumulated, the loop having stopped at the terminator, at a full buffer or at
a `recv` of zero bytes; every store is at an index of at most `buf_size - 1`. -/
theorem RecvAllLoop_spec (recv : Nat → Nat → Option (List Nat)) (buf_size : Nat) :
    ∀ fuel acc calls ret acc2 events, acc.length ≤ buf_size - 1 →
      RecvAllLoop recv buf_size fuel acc calls = some (ret, acc2, events) →
      acc2 = acc ++ recvBytes events ∧ acc2.length ≤ buf_size - 1 ∧
      (∀ i ∈ storeIndices events, i ≤ buf_size - 1) ∧
      ((ret = -1 ∧ ∃ pre cap, events = pre ++ [Event.recv cap none]) ∨
       (ret = (acc2.length : Int) ∧ (∀ cap, Event.recv cap none ∉ events) ∧
        ([13, 10, 13, 10] <:+: c_str acc2 ∨ acc2.length = buf_size - 1 ∨
          ∃ pre cap, events = pre ++ [Event.recv cap (some [])]))) := by
  intro fuel
  induction fuel with
  | zero => intro acc calls ret acc2 events _ h; simp [RecvAllLoop] at h
  | succ fuel ih =>
    intro acc calls ret acc2 events hacc h
    rcases RecvAllLoop_cases h with ⟨hge, rfl, rfl, rfl⟩ | ⟨hlt, rfl, rfl, rfl⟩ |
      ⟨hlt, rfl, rfl, rfl⟩ | ⟨hlt, got, hne, hle, hterm, rfl, rfl, rfl⟩ |
      ⟨hlt, got, rest, hne, hle, hterm, hrec, rfl⟩
    · refine ⟨by simp [recvBytes], hacc, by simp [storeIndices], Or.inr ⟨rfl, by simp, ?_⟩⟩
      exact Or.inr (Or.inl (by omega))
    · refine ⟨by simp [recvBytes], hacc, by simp [storeIndices], Or.inl ⟨rfl, [], _, rfl⟩⟩
    · refine ⟨by simp [recvBytes], hacc, by simp [storeIndices], Or.inr ⟨rfl, by simp, ?_⟩⟩
      exact Or.inr (Or.inr ⟨[], _, rfl⟩)
    · have hl : (acc ++ got).length ≤ buf_size - 1 := by
        rw [List.length_append]; omega
      refine ⟨by simp [recvBytes], hl, ?_, Or.inr ⟨rfl, by simp, Or.inl hterm⟩⟩
      intro i hi
      simp only [storeIndices, List.mem_singleton] at hi
      rw [hi]; exact hl
    · have hl : (acc ++ got).length ≤ buf_size - 1 := by
        rw [List.length_append]; omega
      obtain ⟨i1, i2, i3, i4⟩ := ih _ _ _ _ _ hl hrec
      refine ⟨by rw [i1]; simp [recvBytes], i2, ?_, ?_⟩
      · intro i hi
        simp only [storeIndices, List.mem_cons] at hi
        rcases hi with rfl | hi
        · exact hl
        · exact i3 i hi
      · rcases i4 with ⟨hret, pre, cap, hp⟩ | ⟨hret, hnofail, hstop⟩
        · exact Or.inl ⟨hret, _ :: _ :: pre, cap, by rw [hp]; rfl⟩
        · refine Or.inr ⟨hret, ?_, ?_⟩
          · intro cap hm
            simp only [List.mem_cons] at hm
            rcases hm with e | e | hm
            · cases e
            · cases e
            · exact hnofail cap hm
          · rcases hstop with h1 | h1 | ⟨pre, cap, hp⟩
            · exact Or.inl h1
            · exact Or.inr (Or.inl h1)
            · exact Or.inr (Or.inr ⟨_ :: _ :: pre, cap, by rw [hp]; rfl⟩)

/-- Every `recv` of `RecvAll` is made while nothing stops the loop: the
bytes accumulated before it hold no terminator and are fewer than
`buf_size - 1`; it asks for the room left; and after a `recv` that fails or
delivers nothing no further call is made. -/
theorem RecvAllLoop_prefix (recv : Nat → Nat → Option (List Nat)) (buf_size : Nat) :
    ∀ fuel acc calls ret acc2 events, ¬ [13, 10, 13, 10] <:+: c_str acc →
      RecvAllLoop recv buf_size fuel acc calls = some (ret, acc2, events) →
      ∀ pre cap result post, events = pre ++ Event.recv cap result :: post →
        ¬ [13, 10, 13, 10] <:+: c_str (acc ++ recvBytes pre) ∧
        (acc ++ recvBytes pre).length < buf_size - 1 ∧
        cap = buf_size - (acc ++ recvBytes pre).length - 1 ∧
        ((result = none ∨ result = some []) → post = []) := by
  intro fuel
  induction fuel with
  | zero => intro acc calls ret acc2 events _ h; simp [RecvAllLoop] at h
  | succ fuel ih =>
    intro acc calls ret acc2 events hnt h pre cap result post hsplit
    have first : ∀ (r : Option (List Nat)) (tail : List Event),
        (∀ c q, Event.recv c q ∉ tail) → acc.length < buf_size - 1 →
        Event.recv (buf_size - acc.length - 1) r :: tail = pre ++ Event.recv cap result :: post →
        pre = [] ∧ cap = buf_size - acc.length - 1 ∧ result = r ∧ post = tail := by
      intro r tail htail _ hs
      cases pre with
      | nil =>
        simp only [List.nil_append, List.cons.injEq, Event.recv.injEq] at hs
        exact ⟨rfl, hs.1.1.symm, hs.1.2.symm, hs.2.symm⟩
      | cons x xs =>
        simp only [List.cons_append, List.cons.injEq] at hs
        exfalso
        apply htail cap result
        rw [hs.2]
        exact List.mem_append_right _ (List.mem_cons_self _ _)
    rcases RecvAllLoop_cases h with ⟨hge, -, -, rfl⟩ | ⟨hlt, -, -, rfl⟩ |
      ⟨hlt, -, -, rfl⟩ | ⟨hlt, got, hne, hle, hterm, -, -, rfl⟩ |
      ⟨hlt, got, rest, hne, hle, hterm, hrec, rfl⟩
    · have := congrArg List.length hsplit
      simp at this
      omega
    · obtain ⟨rfl, rfl, rfl, rfl⟩ := first none [] (by simp) hlt hsplit
      simpa [recvBytes] using ⟨hnt, hlt⟩
    · obtain ⟨rfl, rfl, rfl, rfl⟩ := first (some []) [] (by simp) hlt hsplit
      simpa [recvBytes] using ⟨hnt, hlt⟩
    · obtain ⟨rfl, rfl, rfl, rfl⟩ := first (some got) [Event.store (acc ++ got).length]
        (by simp) hlt hsplit
      refine ⟨by simpa [recvBytes] using hnt, by simpa [recvBytes] using hlt,
        by simp [recvBytes], ?_⟩
      rintro (e | e)
      · cases e
      · simp only [Option.some.injEq] at e
        exact absurd e hne
    · cases pre with
      | nil =>
        simp only [List.nil_append, List.cons.injEq, Event.recv.injEq] at hsplit
        obtain ⟨⟨rfl, rfl⟩, rfl⟩ := hsplit
        refine ⟨by simpa [recvBytes] using hnt, by simpa [recvBytes] using hlt,
          by simp [recvBytes], ?_⟩
        rintro (e | e)
        · cases e
        · simp only [Option.some.injEq] at e
          exact absurd e hne
      | cons x xs =>
        simp only [List.cons_append, List.cons.injEq] at hsplit
        obtain ⟨rfl, hs2⟩ := hsplit
        cases xs with
        | nil =>
          simp only [List.nil_append, List.cons.injEq] at hs2
          exact absurd hs2.1 (by simp)
        | cons y ys =>
          simp only [List.cons_append, List.cons.injEq] at hs2
          obtain ⟨rfl, hs3⟩ := hs2
          have := ih _ _ _ _ _ hterm hrec ys cap result post hs3
          simpa [recvBytes, List.append_assoc] using this

/-- C17 (as claimed, refuted): when a `recv` fails after `GET` has been
accumulated, `RecvAll` returns `-1`, not the 3 bytes accumulated; and when the
first `recv` fails it returns `-1`, not 0. -/
theorem C17_failed_read_returns_minus_one_counterexample :
    RecvAll (recvFailsEnv [bytes "GET"] [] []).recv 9999 =
      some (-1, bytes "GET",
        [Event.recv 9998 (some (bytes "GET")), Event.store 3, Event.recv 9995 none]) ∧
    RecvAll (recvFailsEnv [] [] []).recv 9999 = some (-1, [], [Event.recv 9998 none]) ∧
    (-1 : Int) ≠ ((bytes "GET").length : Int) := by
  decide

/-- C17 (amended): for every capacity `buf_size ≥ 2` and every transport,
`RecvAll` returns, having accumulated the bytes delivered, at most
`buf_size - 1`. Every `recv` is made while the bytes accumulated hold no
terminator and are fewer than `buf_size - 1`, and after a `recv` that fails or
delivers nothing no further `recv` is made. The return value is `-1` when the
last `recv` failed; otherwise it is the number of bytes accumulated, and the
loop stopped at the terminator, at `buf_size - 1` bytes or at a `recv` of zero
bytes. -/
theorem C17_RecvAll_stops (recv : Nat → Nat → Option (List Nat)) (buf_size : Nat)
    (hsize : 2 ≤ buf_size) :
    ∃ ret acc events, RecvAll recv buf_size = some (ret, acc, events) ∧
      acc = recvBytes events ∧ acc.length ≤ buf_size - 1 ∧
      (∀ pre cap result post, events = pre ++ Event.recv cap result :: post →
        ¬ [13, 10, 13, 10] <:+: c_str (recvBytes pre) ∧
        (recvBytes pre).length < buf_size - 1 ∧
        cap = buf_size - (recvBytes pre).length - 1 ∧
        ((result = none ∨ result = some []) → post = [])) ∧
      ((ret = -1 ∧ ∃ pre cap, events = pre ++ [Event.recv cap none]) ∨
       (ret = (acc.length : Int) ∧ (∀ cap, Event.recv cap none ∉ events) ∧
        ([13, 10, 13, 10] <:+: c_str acc ∨ acc.length = buf_size - 1 ∨
          ∃ pre cap, events = pre ++ [Event.recv cap (some [])]))) := by
  obtain ⟨⟨ret, acc, events⟩, h⟩ := RecvAll_some recv buf_size (by omega)
  have h2 : RecvAllLoop recv buf_size buf_size [] 0 = some (ret, acc, events) := h
  obtain ⟨i1, i2, -, i4⟩ := RecvAllLoop_spec recv buf_size _ _ _ _ _ _ (Nat.zero_le _) h2
  refine ⟨ret, acc, events, h, by simpa using i1, i2, ?_, i4⟩
  intro pre cap result post hsplit
  have := RecvAllLoop_prefix recv buf_size _ _ _ _ _ _ (by decide) h2 pre cap result post hsplit
  simpa using this

theorem C17_RecvAll_stops_witness :
    RecvAll (plainTransport (bytes "GET / HTTP/1.1\r\n\r\nmore")) 16 =
      some (15, bytes "GET / HTTP/1.1\r",
        [Event.recv 15 (some (bytes "GET / HTTP/1.1\r")), Event.store 15]) ∧
    ∃ ret acc events, RecvAll (plainTransport (bytes "GET / HTTP/1.1\r\n\r\nmore")) 16
        = some (ret, acc, events) ∧
      acc = recvBytes events ∧ acc.length ≤ 16 - 1 ∧
      (∀ pre cap result post, events = pre ++ Event.recv cap result :: post →
        ¬ [13, 10, 13, 10] <:+: c_str (recvBytes pre) ∧
        (recvBytes pre).length < 16 - 1 ∧
        cap = 16 - (recvBytes pre).length - 1 ∧
        ((result = none ∨ result = some []) → post = [])) ∧
      ((ret = -1 ∧ ∃ pre cap, events = pre ++ [Event.recv cap none]) ∨
       (ret = (acc.length : Int) ∧ (∀ cap, Event.recv cap none ∉ events) ∧
        ([13, 10, 13, 10] <:+: c_str acc ∨ acc.length = 16 - 1 ∨
          ∃ pre cap, events = pre ++ [Event.recv cap (some [])]))) :=
  ⟨by decide, C17_RecvAll_stops (plainTransport (bytes "GET / HTTP/1.1\r\n\r\nmore")) 16
    (by decide)⟩

/-! ## Reads that end before the terminator -/

theorem RecvAllLoop_zero (recv : Nat → Nat → Option (List Nat)) (buf_size : Nat) :
    ∀ fuel acc calls ret acc2 events,
      RecvAllLoop recv buf_size fuel acc calls = some (ret, acc2, events) →
      ∀ cap, Event.recv cap (some []) ∈ events → ret = (acc2.length : Int) := by
  intro fuel
  induction fuel with
  | zero => intro acc calls ret acc2 events h; simp [RecvAllLoop] at h
  | succ fuel ih =>
    intro acc calls ret acc2 events h cap hm
    rcases RecvAllLoop_cases h with ⟨-, rfl, rfl, -⟩ | ⟨-, -, -, rfl⟩ |
      ⟨-, rfl, rfl, -⟩ | ⟨-, got, -, -, -, rfl, rfl, -⟩ |
      ⟨-, got, rest, hne, -, -, hrec, rfl⟩
    · rfl
    · simp at hm
    · rfl
    · rfl
    · simp only [List.mem_cons, Event.recv.injEq, Option.some.injEq] at hm
      rcases hm with e | e | hm
      · exact absurd e.2.symm hne
      · cases e
      · exact ih _ _ _ _ _ hrec cap hm

/-- C14 (as claimed, refuted): the peer sends `GET /missing.txt ` and closes
before any terminator; `RecvAll` returns the 17 bytes accumulated and `Talk`
answers with the 404 message. -/
theorem C14_peer_close_still_answered_counterexample :
    ¬ [13, 10, 13, 10] <:+: bytes "GET /missing.txt " ∧
    Talk (plainEnv (bytes "GET /missing.txt ") []) =
      some [Event.recv 9998 (some (bytes "GET /missing.txt ")), Event.store 17,
        Event.recv 9981 (some []), Event.store 17,
        Event.openFile (bytes "/srv/missing.txt"),
        Event.send (bytes
          "HTTP/1.1 404 Not Found\r\nContent-Length: 0\r\nConnection: close\r\n\r\n") (some 64),
        Event.closeSocket] ∧
    (Talk (plainEnv (bytes "GET /missing.txt ") [])).map sentBytes =
      some (bytes "HTTP/1.1 404 Not Found\r\nContent-Length: 0\r\nConnection: close\r\n\r\n") := by
  decide

/-- C14 (amended): when a `recv` returns zero bytes (the peer closed),
`RecvAll` returns the number of bytes accumulated and `Talk` goes on with the
bytes accumulated so far, up to the first NUL, as the request: it does what
`TalkRespond` does on them, and it sends nothing when they have fewer than two
spaces (in particular when nothing was accumulated). -/
theorem C14_peer_close_handled_as_request (env : Env) (ret : Int) (acc : List Nat)
    (events : List Event) (cap : Nat)
    (hr : RecvAll env.recv (10000 - 1) = some (ret, acc, events))
    (hzero : Event.recv cap (some []) ∈ events) :
    ret = (acc.length : Int) ∧ requestOf env = some (c_str acc) ∧
    ∃ rest, TalkRespond env (c_str acc) = some rest ∧
      Talk env = some (events ++ Event.store acc.length :: rest) ∧
      sentBytes (events ++ Event.store acc.length :: rest) = sentBytes rest ∧
      sendCalls (events ++ Event.store acc.length :: rest) = sendCalls rest ∧
      ((c_str acc).count 32 < 2 → rest = [Event.closeSocket] ∧
        sentBytes (events ++ Event.store acc.length :: rest) = [] ∧
        sendCalls (events ++ Event.store acc.length :: rest) = []) := by
  have hret : ret = (acc.length : Int) := RecvAllLoop_zero _ _ _ _ _ _ _ _ hr cap hzero
  have hne : ret ≠ -1 := by omega
  have hrequest : TalkRequest env.heap ret acc = c_str acc := by
    unfold TalkRequest
    simp [hne]
  have hreq : requestOf env = some (c_str acc) := by
    unfold requestOf
    rw [hr]
    simp only [hrequest]
  obtain ⟨rest, hrest⟩ := TalkRespond_some env (c_str acc)
  have hstore : (ret % (2 ^ 64 : Int)).toNat = acc.length := by
    have hl : acc.length ≤ 10000 - 1 - 1 :=
      (RecvAllLoop_spec env.recv (10000 - 1) _ _ _ _ _ _ (Nat.zero_le _) hr).2.1
    rw [hret]
    omega
  have htalk : Talk env = some (events ++ Event.store acc.length :: rest) := by
    unfold Talk
    rw [hr]
    simp only [hrequest, hrest, hstore]
  have hreading : ∀ e ∈ events ++ [Event.store acc.length], e.reading = true := by
    intro e he
    rcases List.mem_append.mp he with h1 | h1
    · exact RecvAllLoop_reading _ _ _ _ _ _ _ _ hr e h1
    · simp only [List.mem_singleton] at h1; subst h1; rfl
  obtain ⟨g1, g2, -, -, -⟩ := append_projections _ rest hreading
  simp only [List.append_assoc, List.singleton_append] at g1 g2
  refine ⟨hret, hreq, rest, hrest, htalk, g1, g2, ?_⟩
  intro hcount
  have hparse : TalkParse (c_str acc) = none := by
    cases hp : TalkParse (c_str acc) with
    | none => rfl
    | some tokens =>
      obtain ⟨a, p⟩ := tokens
      have := TalkParse_two_spaces _ a p hp
      omega
  have hclose : rest = [Event.closeSocket] := by
    unfold TalkRespond at hrest
    rw [hparse] at hrest
    exact (Option.some.inj hrest).symm
  refine ⟨hclose, ?_, ?_⟩
  · rw [g1, hclose]; rfl
  · rw [g2, hclose]; rfl

theorem C14_peer_close_handled_as_request_witness :
    RecvAll (plainEnv (bytes "GET /missing.txt") []).recv (10000 - 1) =
      some (16, bytes "GET /missing.txt",
        [Event.recv 9998 (some (bytes "GET /missing.txt")), Event.store 16,
          Event.recv 9982 (some [])]) ∧
    (c_str (bytes "GET /missing.txt")).count 32 < 2 ∧
    Talk (plainEnv (bytes "GET /missing.txt") []) =
      some ([Event.recv 9998 (some (bytes "GET /missing.txt")), Event.store 16,
          Event.recv 9982 (some [])] ++ Event.store 16 :: [Event.closeSocket]) := by
  obtain ⟨-, -, rest, -, h2, -, -, h5⟩ := C14_peer_close_handled_as_request
    (plainEnv (bytes "GET /missing.txt") []) 16 (bytes "GET /missing.txt")
    [Event.recv 9998 (some (bytes "GET /missing.txt")), Event.store 16,
      Event.recv 9982 (some [])] 9982 (by decide) (by decide)
  obtain ⟨h6, -, -⟩ := h5 (by decide)
  rw [h6] at h2
  exact ⟨by decide, by decide, h2⟩

/-! ## Ignored error returns -/

/-- The stores inside `RecvAll` as `Talk` calls it are within the buffer of
10000 bytes, and so is the store of `Talk` whenever `RecvAll` did not fail;
after a failed `recv` the index is `2^64 - 1`. -/
theorem RecvAll_store_indices (recv : Nat → Nat → Option (List Nat)) (ret : Int)
    (acc : List Nat) (events : List Event)
    (hr : RecvAll recv (10000 - 1) = some (ret, acc, events)) :
    (∀ i ∈ storeIndices events, i < 10000) ∧
    (ret ≠ -1 → (ret % (2 ^ 64 : Int)).toNat < 10000) ∧
    (ret = -1 → (ret % (2 ^ 64 : Int)).toNat = 2 ^ 64 - 1) := by
  obtain ⟨-, i2, i3, i4⟩ := RecvAllLoop_spec recv (10000 - 1) _ _ _ _ _ _ (Nat.zero_le _) hr
  refine ⟨?_, ?_, ?_⟩
  · intro i hi
    have := i3 i hi
    omega
  · intro hne
    rcases i4 with ⟨h1, -⟩ | ⟨h1, -⟩
    · exact absurd h1 hne
    · rw [h1]; omega
  · intro h1
    rw [h1]
    decide

/-- C13 (the code at the failing input): the first `recv` fails, so nothing
has been accumulated and the accumulated buffer is empty; `Talk` ignores the
`-1` of `RecvAll` and parses what the uninitialised buffer holds, here the bytes
of an earlier request: instead of only closing, it opens a file and sends the
404 message. -/
theorem C13_empty_buffer_answered_after_failed_read :
    RecvAll (recvFailsEnv [] (bytes "GET /missing.txt HTTP/1.1") []).recv (10000 - 1) =
      some (-1, [], [Event.recv 9998 none]) ∧
    ([] : List Nat).count 32 < 2 ∧
    Talk (recvFailsEnv [] (bytes "GET /missing.txt HTTP/1.1") []) =
      some [Event.recv 9998 none, Event.store 18446744073709551615,
        Event.openFile (bytes "/srv/missing.txt"),
        Event.send (bytes
          "HTTP/1.1 404 Not Found\r\nContent-Length: 0\r\nConnection: close\r\n\r\n") (some 64),
        Event.closeSocket] ∧
    (Talk (recvFailsEnv [] (bytes "GET /missing.txt HTTP/1.1") [])).map sentBytes =
      some (bytes "HTTP/1.1 404 Not Found\r\nContent-Length: 0\r\nConnection: close\r\n\r\n") ∧
    (Talk (recvFailsEnv [] (bytes "GET /missing.txt HTTP/1.1") [])).map openCalls =
      some [bytes "/srv/missing.txt"] := by
  decide

/-- C19 (the code at the failing input): when the first `recv` fails,
`RecvAll` returns `-1` and `Talk` stores the NUL at index `2^64 - 1` of its
buffer of 10000 bytes; the same happens when a later `recv` fails. -/
theorem C19_store_out_of_bounds_after_failed_read :
    Talk (recvFailsEnv [] [] []) =
      some [Event.recv 9998 none, Event.store 18446744073709551615, Event.closeSocket] ∧
    (Talk (recvFailsEnv [bytes "GET"] [] [])).map storeIndices =
      some [3, 18446744073709551615] ∧
    ¬ (18446744073709551615 < 10000) := by
  decide

/-- C15 (the code at the failing inputs): the `send` of the 200 header fails,
and `Talk` still reads the file and offers its bytes in a second `send`; a
`recv` fails after the request line has arrived, and `Talk` still opens the
file and sends the 404 message. -/
theorem C15_work_continues_after_transport_error :
    Talk (firstSendFailsEnv (bytes "GET /file.html HTTP/1.1\r\n\r\n")
        [(bytes "/srv/file.html", FileObject.regular 9 (bytes "<p>hi</p>"))]) =
      some [Event.recv 9998 (some (bytes "GET /file.html HTTP/1.1\r\n\r\n")),
        Event.store 27, Event.store 27, Event.openFile (bytes "/srv/file.html"),
        Event.send (bytes ("HTTP/1.1 200 OK\r\nContent-Type: text/html\r\n"
          ++ "Content-Length: 9\r\nConnection: close\r\n\r\n")) none,
        Event.read (bytes "<p>hi</p>"), Event.send (bytes "<p>hi</p>") (some 9),
        Event.read [], Event.closeFile, Event.closeSocket] ∧
    Talk (recvFailsEnv [bytes "GET /missing.txt HTTP/1.1"] [] []) =
      some [Event.recv 9998 (some (bytes "GET /missing.txt HTTP/1.1")), Event.store 25,
        Event.recv 9973 none, Event.store 18446744073709551615,
        Event.openFile (bytes "/srv/missing.txt"),
        Event.send (bytes
          "HTTP/1.1 404 Not Found\r\nContent-Length: 0\r\nConnection: close\r\n\r\n") (some 64),
        Event.closeSocket] := by
  decide

end LinuxTinyServer
